import Mathlib

/-!
Verification of the HTML scraping and record-reconciliation pipeline of this
repository (file `books_scrapper.py`): score parsing, field splitting, table
extraction, per-document normalization, and the multi-document merge
(`_merge_parsed_results`).

The Python code is shallowly embedded: strings are Lean `String` / `List Char`
(ASCII is what the pipeline actually meets), Python `float` values are modelled
by `PyFloat`: an exact rational for finite values (the claims only involve
values on which the rational and IEEE-754 semantics agree) together with the
special values `inf`, `-inf` and `nan` that Python's `float()` also accepts,
Python
`None` is `Option.none`, Python dicts (which preserve insertion order and
update in place) are association lists with insert-or-update-in-place
semantics, and Python sets of strings are duplicate-free lists (their internal
order is irrelevant because the code only ever sorts them before use).
-/

/-- Python truthiness-respecting set/list-membership insert: `if x not in xs:
xs.append(x)`.  Used for `classes_set`, `title_set` and for `set.add` on
title sets (a Python `set` is modelled as a duplicate-free list; the code
only consumes such sets through `sorted(...)`, so insertion order is
immaterial). -/
def pyAdd {α : Type} [DecidableEq α] (xs : List α) (x : α) : List α :=
  if x ∈ xs then xs else xs ++ [x]

/-- First-occurrence deduplication: keeps the first appearance of each element,
in encounter order.  This is the specification-side description of how the
code's `if x not in acc: acc.append(x)` loops behave. -/
def firstDedup {α : Type} [DecidableEq α] (l : List α) : List α :=
  l.foldl pyAdd []

/-- Python `str.strip()` on a character list: drop whitespace from both ends
(the pipeline only meets ASCII whitespace, which `Char.isWhitespace` covers). -/
def pyStrip (cs : List Char) : List Char :=
  ((cs.dropWhile Char.isWhitespace).reverse.dropWhile Char.isWhitespace).reverse

/-- Python `str.strip()` on a `String`. -/
def pyStripStr (s : String) : String :=
  ⟨pyStrip s.data⟩

/-- Python `str.lower()` for the ASCII range (the only case the pipeline's
header names exercise). -/
def asciiLower (c : Char) : Char :=
  if 'A' ≤ c ∧ c ≤ 'Z' then Char.ofNat (c.toNat + 32) else c

/-- Value of a list of decimal digit characters (most significant first). -/
def digitsVal (cs : List Char) : Nat :=
  cs.foldl (fun a c => a * 10 + (c.toNat - 48)) 0

/-- The result of Python `float()`: either a finite value — modelled as an
exact rational (every finite value the claims mention is exactly
representable in an IEEE-754 double, on which the rational model and the
code agree) — or one of the special values `inf`, `-inf`, `nan` that
`float()` also produces from the spellings `inf`/`infinity`/`nan`. -/
inductive PyFloat : Type
  | val (q : Rat)
  | inf
  | ninf
  | nan
deriving DecidableEq, Repr

/-- Continuation of a Python digitpart `digit (["_"] digit)*` (PEP 515):
consumes further digits, allowing a single underscore between two digits,
and returns the consumed digits (separators removed) together with the
unconsumed remainder. -/
def tdpTail : List Char → (List Char × List Char)
  | [] => ([], [])
  | c :: rest =>
    if c.isDigit then (c :: (tdpTail rest).1, (tdpTail rest).2)
    else if c = '_' ∧ rest.head?.any Char.isDigit then
      ((tdpTail rest).1, (tdpTail rest).2)
    else ([], c :: rest)

/-- Longest prefix of a Python digitpart `digit (["_"] digit)*`: the digits
with underscore separators removed, and the remainder. -/
def takeDigitPart : List Char → (List Char × List Char)
  | [] => ([], [])
  | c :: rest =>
    if c.isDigit then (c :: (tdpTail rest).1, (tdpTail rest).2)
    else ([], c :: rest)

/-- An exponent digitpart that must consume the whole remaining input. -/
def pyExpDigits? (cs : List Char) : Option Nat :=
  if (takeDigitPart cs).1 ≠ [] ∧ (takeDigitPart cs).2 = [] then
    some (digitsVal (takeDigitPart cs).1)
  else none

/-- Signed decimal exponent suffix of a Python float literal:
`[sign] digitpart`. -/
def pyExp? (cs : List Char) : Option Int :=
  match cs with
  | '+' :: r => (pyExpDigits? r).map (fun n => (n : Int))
  | '-' :: r => (pyExpDigits? r).map (fun n => -(n : Int))
  | r => (pyExpDigits? r).map (fun n => (n : Int))

/-- Apply an optional exponent suffix to an already-parsed mantissa. -/
def pyExpApply (base : Rat) (r : List Char) : Option Rat :=
  (pyExp? r).map (fun e => base * (10 : Rat) ^ e)

/-- After the integer and fraction parts: nothing, or an `e`/`E` exponent. -/
def pyFloatAfterDot (base : Rat) : List Char → Option Rat
  | [] => some base
  | 'e' :: r => pyExpApply base r
  | 'E' :: r => pyExpApply base r
  | _ => none

/-- After the integer part `intPart` of an unsigned float literal: nothing,
a fraction `. [digitpart]`, or an exponent; at least one digit must occur
in the mantissa. -/
def pyFloatAfterInt (intPart : List Char) : List Char → Option Rat
  | [] => if intPart = [] then none else some (digitsVal intPart : Rat)
  | '.' :: rest2 =>
    if intPart = [] ∧ (takeDigitPart rest2).1 = [] then none
    else pyFloatAfterDot
      ((digitsVal intPart : Rat) +
        (digitsVal (takeDigitPart rest2).1 : Rat) / (10 : Rat) ^ (takeDigitPart rest2).1.length)
      (takeDigitPart rest2).2
  | 'e' :: r => if intPart = [] then none else pyExpApply (digitsVal intPart : Rat) r
  | 'E' :: r => if intPart = [] then none else pyExpApply (digitsVal intPart : Rat) r
  | _ => none

/-- Unsigned finite Python float literal `digitpart [. [digitpart]] [e exp]`
or `. digitpart [e exp]`, with PEP 515 underscore separators; at least one
digit must be present.  Returns the exact rational value. -/
def pyFloatUnsigned (cs : List Char) : Option Rat :=
  pyFloatAfterInt (takeDigitPart cs).1 (takeDigitPart cs).2

/-- The special spellings Python `float()` accepts after the optional sign:
`inf`, `infinity` and `nan`, case-insensitively. -/
def pyFloatSpecial? (cs : List Char) : Option PyFloat :=
  if cs.map asciiLower = ['i', 'n', 'f'] ∨
      cs.map asciiLower = ['i', 'n', 'f', 'i', 'n', 'i', 't', 'y'] then some PyFloat.inf
  else if cs.map asciiLower = ['n', 'a', 'n'] then some PyFloat.nan
  else none

/-- Python `float(s)` on an already-stripped string: an optional sign
followed by either a special spelling (`inf`/`infinity` give the infinities
with the sign applied; `nan` gives `nan` — a NaN's sign is not observable
anywhere in this pipeline) or a finite decimal literal over ASCII digits. -/
def pyFloatCore (cs : List Char) : Option PyFloat :=
  match cs with
  | '+' :: rest =>
    match pyFloatSpecial? rest with
    | some v => some v
    | none => (pyFloatUnsigned rest).map PyFloat.val
  | '-' :: rest =>
    match pyFloatSpecial? rest with
    | some PyFloat.inf => some PyFloat.ninf
    | some v => some v
    | none => (pyFloatUnsigned rest).map (fun q => PyFloat.val (-q))
  | _ =>
    match pyFloatSpecial? cs with
    | some v => some v
    | none => (pyFloatUnsigned cs).map PyFloat.val

/-- `parse_score` from `parse_students_from_html` (books_scrapper.py lines
121-129): `None` propagates, otherwise every `%` is removed
(`s.replace('%','')`), the result is stripped, and `float(...)` is
attempted; any parse failure yields `None`. -/
def parse_score (s : Option String) : Option PyFloat :=
  match s with
  | none => none
  | some s => pyFloatCore (pyStrip (s.data.filter (fun c => c ≠ '%')))

/-- Python `text.split('|')` on a character list: split at every `'|'`,
keeping empty pieces (`''.split('|') == ['']`, so the empty text yields one
empty piece). -/
def splitPipe : List Char → List (List Char)
  | [] => [[]]
  | c :: rest =>
    let r := splitPipe rest
    if c = '|' then [] :: r
    else
      match r with
      | [] => [[c]]
      | p :: ps => (c :: p) :: ps

/-- The field splitter of `parse_students_from_html` (books_scrapper.py line
92): `[p.strip() for p in r.get_text(separator='|').split('|') if p.strip()]`
— split the flattened element text on the `'|'` separator, strip each piece,
and keep only the non-empty stripped pieces. -/
def fsplit (cs : List Char) : List (List Char) :=
  ((splitPipe cs).map pyStrip).filter (fun p => p ≠ [])

/-- String-level wrapper of the field splitter. -/
def field_split (s : String) : List String :=
  (fsplit s.data).map String.mk

/-- Rejoining split pieces with the same `'|'` separator (used to state the
idempotence property of the splitter). -/
def joinPipe : List (List Char) → List Char
  | [] => []
  | [p] => p
  | p :: ps => p ++ '|' :: joinPipe ps

/-- A value stored in a raw record: either a single string cell or an ordered
list of strings (the `classes` / `grades` accumulator fields of the block
path). -/
inductive RawVal : Type
  | s (v : String)
  | l (vs : List String)
deriving DecidableEq, Repr

/-- A raw record: a Python dict from field name to value, modelled as an
association list in insertion order with unique keys (the extractor builds
records through `dictInsert`, which preserves this). -/
abbrev RawRecord := List (String × RawVal)

/-- Python `d[k] = v` on a dict: update the existing entry in place if the key
is present, otherwise append the new binding at the end. -/
def dictInsert (e : RawRecord) (k : String) (v : RawVal) : RawRecord :=
  if e.any (fun p => p.1 = k) then
    e.map (fun p => if p.1 = k then (k, v) else p)
  else e ++ [(k, v)]

/-- Python `d.get(k)` on a raw record (first binding; the extractor keeps keys
unique, so this is the dict lookup). -/
def rget (r : RawRecord) (k : String) : Option RawVal :=
  (r.find? (fun p => decide (p.1 = k))).map (fun p => p.2)

/-- Python `k in d` on a raw record. -/
def rhas (r : RawRecord) (k : String) : Bool :=
  r.any (fun p => p.1 = k)

/-- String lookup on a raw record: the extractor stores single cells as
strings, so scalar fields (`name`, `email`, `age`, header-named columns) are
always `RawVal.s`; a list value under such a key never occurs and yields
`none`. -/
def rgetS (r : RawRecord) (k : String) : Option String :=
  match rget r k with
  | some (RawVal.s v) => some v
  | _ => none

/-- Python substring test `pat in s`, via `splitOn`: the pattern occurs in `s`
iff splitting on it yields more than one piece. -/
def strContains (s pat : String) : Bool :=
  (s.splitOn pat).length > 1

/-- One table of the parsed HTML document, as BeautifulSoup exposes it to the
table path of `parse_students_from_html` (books_scrapper.py lines 31-56):
`theadTh` is `some` of the texts of the `th` cells inside the `thead` element
when one is present (`thead.find_all('th')`), and `rows` is the list of all
`tr` rows of the table in document order — including any row belonging to the
`thead` — each row being the raw texts of its `td`/`th` cells
(`table.find_all('tr')` finds every row, which is why the code skips
`rows[0]`).  Cell texts are stored raw; the extractor applies
`get_text(strip=True)` itself. -/
structure HtmlTable where
  theadTh : Option (List String)
  rows : List (List String)
deriving DecidableEq, Repr

/-- `get_text(strip=True)` of a cell: the stripped text. -/
def cellText (s : String) : String :=
  pyStripStr s

/-- A header cell's contribution: `get_text(strip=True).lower()`. -/
def headerText (s : String) : String :=
  ⟨(pyStrip s.data).map asciiLower⟩

/-- Header-name determination of the table path (books_scrapper.py lines
34-41): the `th` cells of the `thead` if a `thead` exists, otherwise the cells
of the first row; either way lower-cased stripped text. -/
def tableHeaders (t : HtmlTable) : List String :=
  match t.theadTh with
  | some ths => ths.map headerText
  | none =>
    match t.rows with
    | [] => []
    | r :: _ => r.map headerText

/-- The field name used for column `i` of a data row: the `i`-th known header
if one exists, else the synthetic positional name `col_<i>` (Python
`f'col_{i}'`). -/
def colName (headers : List String) (i : Nat) : String :=
  match headers[i]? with
  | some h => h
  | none => "col_" ++ Nat.repr i

/-- Build one raw record from a data row's cell texts (books_scrapper.py lines
49-55): for each cell in order, store it under its column's field name with
dict update semantics. -/
def rowEntry (headers : List String) (cols : List String) : RawRecord :=
  cols.enum.foldl (fun e p => dictInsert e (colName headers p.1) (RawVal.s p.2)) []

/-- The table path of the record extractor (books_scrapper.py lines 31-56):
every row after the first is a candidate record; its cells are stripped
(`get_text(strip=True)`); rows with no cells are skipped (`if not cols:
continue`); each remaining row becomes one raw record. -/
def extract_table (t : HtmlTable) : List RawRecord :=
  let headers := tableHeaders t
  (t.rows.drop 1).foldl
    (fun acc r =>
      let cols := r.map cellText
      if cols = [] then acc else acc ++ [rowEntry headers cols])
    []

/-- The field name of every column of a row, in order (specification-side
companion of `rowEntry`). -/
def colKeys (headers : List String) (cols : List String) : List String :=
  cols.enum.map (fun p => colName headers p.1)

/-- A student dict as produced by `parse_students_from_html` and consumed by
`_merge_parsed_results`: `{id, name, email, age, enrolled_classes}`.  `email`
is `Option` because merge inputs may carry a missing email (the merge code
guards every access with `or ''`); the normalizer itself always emits a
string. -/
structure SrcStudent where
  id : Nat
  name : String
  email : Option String
  age : Option Int
  enrolled_classes : List Nat
deriving DecidableEq, Repr

/-- A class dict `{id, title}`. -/
structure SrcClass where
  id : Nat
  title : String
deriving DecidableEq, Repr

/-- A grade dict `{student_id, class_id, score, feedback}`. -/
structure SrcGrade where
  student_id : Nat
  class_id : Nat
  score : Option PyFloat
  feedback : Option String
deriving DecidableEq, Repr

/-- One parsed document: the `{'students': …, 'classes': …, 'grades': …}`
dict returned by `parse_students_from_html`, and the element type of
`_merge_parsed_results`' inputs and output. -/
structure Parsed where
  students : List SrcStudent
  classes : List SrcClass
  grades : List SrcGrade
deriving DecidableEq, Repr

/-- Enumerate titles into class dicts with ids starting at `i`
(`[{'id': i + 1, 'title': t} for i, t in enumerate(ts)]`, with `i` the
starting id). -/
def classesOf (i : Nat) : List String → List SrcClass
  | [] => []
  | t :: ts => ⟨i, t⟩ :: classesOf (i + 1) ts

/-- The `{title: id}` dict built from a duplicate-free title list
(`{c['title']: c['id'] for c in classes}` and `class_map` alike): the
1-based position of the title's first occurrence. -/
def classMapOf (ts : List String) (t : String) : Option Nat :=
  (ts.findIdx? (fun x => decide (x = t))).map (fun i => i + 1)

/-- Python truthy `or` on optional strings: the left value when it is a
non-empty string, otherwise the right operand. -/
def orStr (a : Option String) (b : Option String) : Option String :=
  match a with
  | some v => if v = "" then b else some v
  | none => b

/-- Python `int(s)` for optionally-signed ASCII decimal strings (surrounding
whitespace allowed), `none` on anything else — the `except` branch of the
normalizer's age parse. -/
def pyInt? (s : String) : Option Int :=
  let cs := pyStrip s.data
  match cs with
  | '+' :: r => if r ≠ [] ∧ r.all Char.isDigit then some (digitsVal r : Int) else none
  | '-' :: r => if r ≠ [] ∧ r.all Char.isDigit then some (-(digitsVal r : Int)) else none
  | r => if r ≠ [] ∧ r.all Char.isDigit then some (digitsVal r : Int) else none

/-- Name resolution of the normalizer (books_scrapper.py line 133):
`raw.get('name') or raw.get('student') or raw.get('full name')`, with the
final `or f'unknown_{idx}'` fallback applied at line 173. -/
def rawName (idx : Nat) (raw : RawRecord) : String :=
  match orStr (orStr (rgetS raw "name") (rgetS raw "student")) (rgetS raw "full name") with
  | some v => if v = "" then "unknown_" ++ Nat.repr idx else v
  | none => "unknown_" ++ Nat.repr idx

/-- Email resolution (line 134): `raw.get('email') or ''`. -/
def rawEmail (raw : RawRecord) : String :=
  match rgetS raw "email" with
  | some v => v
  | none => ""

/-- Age resolution (lines 135-139): `int(age_raw) if age_raw else None`,
`None` on exception. -/
def rawAge (raw : RawRecord) : Option Int :=
  match rgetS raw "age" with
  | some v => if v = "" then none else pyInt? v
  | none => none

/-- Class-name resolution (lines 142-153): the `classes` list field if
present, else a singleton of the `class` field, else every truthy string value
whose key contains the substring `class`.  (The extractor stores a list under
`classes` and strings elsewhere, so the remaining constructor combinations do
not occur; they are mapped to the nearest Python behaviour.) -/
def rawClassNames (raw : RawRecord) : List String :=
  match rget raw "classes" with
  | some (RawVal.l vs) => vs
  | some (RawVal.s v) => [v]
  | none =>
    match rget raw "class" with
    | some (RawVal.s v) => [v]
    | some (RawVal.l vs) => vs
    | none =>
      raw.foldl
        (fun acc p =>
          if strContains p.1 "class" then
            match p.2 with
            | RawVal.s v => if v = "" then acc else acc ++ [v]
            | RawVal.l _ => acc
          else acc)
        []

/-- Grade-value resolution (lines 156-164): the `grades` list field if
present, else every truthy string value whose key contains `grade` or
`score`. -/
def rawGradeVals (raw : RawRecord) : List String :=
  match rget raw "grades" with
  | some (RawVal.l vs) => vs
  | some (RawVal.s v) => [v]
  | none =>
    raw.foldl
      (fun acc p =>
        if strContains p.1 "grade" || strContains p.1 "score" then
          match p.2 with
          | RawVal.s v => if v = "" then acc else acc ++ [v]
          | RawVal.l _ => acc
        else acc)
      []

/-- The grade value paired with class index `i` (books_scrapper.py lines
186-192): the `i`-th grade string when there is one, otherwise — for any
class index beyond the grade list — the first grade string if any grades were
given at all. -/
def gradeFor (gvs : List String) (i : Nat) : Option PyFloat :=
  match gvs[i]? with
  | some gv => parse_score (some gv)
  | none =>
    match gvs with
    | [] => none
    | gv0 :: _ => parse_score (some gv0)

/-- A student as it exists during the normalization loop: `enrolled_classes`
still holds class titles (they are remapped to ids afterwards). -/
structure PreStudent where
  id : Nat
  name : String
  email : String
  age : Option Int
  enrolled_titles : List String
deriving DecidableEq, Repr

/-- A grade as it exists during the normalization loop: the class is carried
as `class_title` until the remap. -/
structure PreGrade where
  student_id : Nat
  class_title : String
  score : PyFloat
  feedback : Option String
deriving DecidableEq, Repr

/-- Accumulator of the normalization loop: the growing `classes_set`,
`students` and `grades` lists. -/
structure NormState where
  cset : List String
  studs : List PreStudent
  grs : List PreGrade
deriving DecidableEq, Repr

/-- One iteration of the normalization loop (books_scrapper.py lines
132-200) on raw record number `idx`: append the student, register every class
name on first sight, enroll the student in every class name in order, and emit
a grade for class index `i` whenever `gradeFor` yields a parsed score. -/
def normStep (st : NormState) (idx : Nat) (raw : RawRecord) : NormState :=
  let cnames := rawClassNames raw
  let gvs := rawGradeVals raw
  let stud : PreStudent := ⟨idx, rawName idx raw, rawEmail raw, rawAge raw, cnames⟩
  let cset := cnames.foldl pyAdd st.cset
  let newGrades := cnames.enum.filterMap
    (fun p => (gradeFor gvs p.1).map (fun sc => (⟨idx, p.2, sc, none⟩ : PreGrade)))
  ⟨cset, st.studs ++ [stud], st.grs ++ newGrades⟩

/-- Run the normalization loop over all raw records with 1-based indices. -/
def normLoop (raws : List RawRecord) : NormState :=
  (raws.enum.map (fun p => (p.1 + 1, p.2))).foldl (fun st p => normStep st p.1 p.2) ⟨[], [], []⟩

/-- The normalization pass of `parse_students_from_html` (books_scrapper.py
lines 115-216): run the loop, then build the canonical classes list from
`classes_set` and remap students' enrolled titles
(`[map.get(t) for t in titles if t in map]`) and grades' `class_title`
(`class_title_to_id.get(title)`; every emitted grade's title was registered,
so the lookup always succeeds and the `getD 0` default is never taken) to
class ids. -/
def normalizeRecords (raws : List RawRecord) : Parsed :=
  let fin := normLoop raws
  let classes := classesOf 1 fin.cset
  let students := fin.studs.map
    (fun s => (⟨s.id, s.name, some s.email, s.age,
               s.enrolled_titles.filterMap (classMapOf fin.cset)⟩ : SrcStudent))
  let grades := fin.grs.map
    (fun g => (⟨g.student_id, (classMapOf fin.cset g.class_title).getD 0,
               some g.score, g.feedback⟩ : SrcGrade))
  ⟨students, classes, grades⟩

/-- The whole table pipeline on one document containing a table: extraction
followed by normalization. -/
def parseTable (t : HtmlTable) : Parsed :=
  normalizeRecords (extract_table t)

/-- The student deduplication key of the merge: `(name, email or '')`
(books_scrapper.py line 284). -/
abbrev Key := String × String

/-- `key = (s.get('name'), s.get('email') or '')`. -/
def skey (s : SrcStudent) : Key :=
  (s.name, s.email.getD "")

/-- The `class_id_to_title` helper of `_merge_parsed_results` (lines 275-279):
first class of the source document with the given local id, if any. -/
def class_id_to_title (src : Parsed) (cid : Nat) : Option String :=
  (src.classes.find? (fun c => decide (c.id = cid))).map (fun c => c.title)

/-- The class titles a source student's enrollment resolves to (lines
292-296): each local class id is looked up in the source's own class table and
kept only when the resulting title is truthy (`if title:` — a missing id or an
empty-string title is skipped). -/
def resolveTitles (src : Parsed) (s : SrcStudent) : List String :=
  s.enrolled_classes.filterMap
    (fun cid =>
      match class_id_to_title src cid with
      | some t => if t = "" then none else some t
      | none => none)

/-- A merged-student accumulator entry: the fields stored on first sight of a
key plus the growing set of enrolled class titles (lines 285-291). -/
structure MS where
  name : String
  email : Option String
  age : Option Int
  titles : List String
deriving DecidableEq, Repr

/-- Update every entry of the accumulator holding the given key (keys are
unique, so this is the dict update `merged_students[key]`). -/
def updAssoc (m : List (Key × MS)) (k : Key) (f : MS → MS) : List (Key × MS) :=
  m.map (fun p => if p.1 = k then (p.1, f p.2) else p)

/-- Process one source student (lines 283-296): create the merged record on
first sight of its key — name, email and age are taken from this first
occurrence — then add every resolved enrolled class title to the key's title
set. -/
def insStudent (src : Parsed) (m : List (Key × MS)) (s : SrcStudent) : List (Key × MS) :=
  let k := skey s
  if m.any (fun p => p.1 = k) then
    updAssoc m k (fun d => ⟨d.name, d.email, d.age, (resolveTitles src s).foldl pyAdd d.titles⟩)
  else
    m ++ [(k, ⟨s.name, s.email, s.age, (resolveTitles src s).foldl pyAdd []⟩)]

/-- All (source document, student) pairs in iteration order: main document
first, then each detail document, each document's students in their stored
order — exactly the order of the merge's nested student loops. -/
def studentPairs (sources : List Parsed) : List (Parsed × SrcStudent) :=
  sources.flatMap (fun src => src.students.map (fun s => (src, s)))

/-- The `merged_students` ordered dict after the student-merge loop (lines
282-296). -/
def mergedStudents (sources : List Parsed) : List (Key × MS) :=
  (studentPairs sources).foldl (fun m p => insStudent p.1 m p.2) []

/-- The `title_set` list (lines 263-269): every source's class titles in
document order, first occurrences only. -/
def titleUniverse (sources : List Parsed) : List String :=
  sources.foldl (fun acc src => src.classes.foldl (fun acc c => pyAdd acc c.title) acc) []

/-- An entry of `merged_grades` (lines 311-316): the owner's dedup key, the
resolved class title, and the carried score and feedback. -/
structure MG where
  student_key : Key
  class_title : String
  score : Option PyFloat
  feedback : Option String
deriving DecidableEq, Repr

/-- The grade-merge loop (lines 299-316): for every source grade, find the
owning student by local id (`next(...)`, i.e. first match; skip the grade if
there is none), resolve the class id to a title in the same source (skip when
the lookup fails or the title is falsy: `if not ctitle: continue`). -/
def mergedGradesOf (sources : List Parsed) : List MG :=
  sources.flatMap
    (fun src =>
      src.grades.filterMap
        (fun g =>
          match src.students.find? (fun x => decide (x.id = g.student_id)) with
          | none => none
          | some st =>
            match class_id_to_title src g.class_id with
            | none => none
            | some t =>
              if t = "" then none
              else some ⟨skey st, t, g.score, g.feedback⟩))

/-- Lexicographic (code-point) comparison of character lists — the order
Python uses on `str`. -/
def chLe : List Char → List Char → Bool
  | [], _ => true
  | _ :: _, [] => false
  | a :: as', b :: bs => if a = b then chLe as' bs else decide (a.toNat < b.toNat)

/-- Python's `≤` on strings. -/
def strLe (a b : String) : Prop :=
  chLe a.data b.data = true

instance : DecidableRel strLe := fun a b => by
  unfold strLe
  infer_instance

/-- `sorted(...)` on a title set: the ascending lexicographic arrangement.
Modelled with insertion sort; on the duplicate-free title sets the code sorts,
the ascending arrangement is unique, so any correct sort is the Python
`sorted`. -/
def sortTitles (ts : List String) : List String :=
  List.insertionSort strLe ts

/-- Build the final merged student dicts (lines 319-329): global ids are
handed out by enumeration order starting at `i`, and `enrolled_classes` is the
title set sorted ascending and mapped through `class_map` (Python indexes the
dict directly; every stored title is in the universe, so the `filterMap`
drops nothing). -/
def studentsOf (u : List String) : Nat → List (Key × MS) → List SrcStudent
  | _, [] => []
  | i, (_, d) :: m =>
    ⟨i, d.name, d.email, d.age, (sortTitles d.titles).filterMap (classMapOf u)⟩
      :: studentsOf u (i + 1) m

/-- The `key_to_new_id` dict (lines 320-322): 1-based position of the key in
the merged-students order. -/
def key_to_new_id (sources : List Parsed) (k : Key) : Option Nat :=
  (((mergedStudents sources).map (fun p => p.1)).findIdx? (fun x => decide (x = k))).map
    (fun i => i + 1)

/-- `_merge_parsed_results` (books_scrapper.py lines 254-346): merge the main
document with the detail documents — global title universe, student
deduplication by `(name, email or '')`, grade remapping, and final dense
renumbering.  The final grade filter keeps a merged grade only when both `new
sid` and `new cid` are truthy (`if new_sid and new_cid`). -/
def mergeParsed (main : Parsed) (details : List Parsed) : Parsed :=
  let sources := main :: details
  let u := titleUniverse sources
  let ms := mergedStudents sources
  let students := studentsOf u 1 ms
  let grades := (mergedGradesOf sources).filterMap
    (fun mg =>
      match key_to_new_id sources mg.student_key, classMapOf u mg.class_title with
      | some ns, some nc =>
        if ns ≠ 0 ∧ nc ≠ 0 then some (⟨ns, nc, mg.score, mg.feedback⟩ : SrcGrade) else none
      | _, _ => none)
  ⟨students, classesOf 1 u, grades⟩

/-! ## Generic lemmas about the Python-style helpers -/

theorem mem_pyAdd {α : Type} [DecidableEq α] (xs : List α) (x y : α) :
    y ∈ pyAdd xs x ↔ y ∈ xs ∨ y = x := by
  unfold pyAdd
  split
  · constructor
    · exact Or.inl
    · rintro (h | rfl) <;> assumption
  · simp [List.mem_append]

theorem nodup_pyAdd {α : Type} [DecidableEq α] {xs : List α} (h : xs.Nodup) (x : α) :
    (pyAdd xs x).Nodup := by
  unfold pyAdd
  split
  · exact h
  · rename_i hx
    simpa [List.nodup_append, h] using hx

theorem mem_foldl_pyAdd {α : Type} [DecidableEq α] (l : List α) (acc : List α) (y : α) :
    y ∈ l.foldl pyAdd acc ↔ y ∈ acc ∨ y ∈ l := by
  induction l generalizing acc with
  | nil => simp
  | cons a l ih =>
    simp only [List.foldl_cons, ih, mem_pyAdd, List.mem_cons]
    tauto

theorem nodup_foldl_pyAdd {α : Type} [DecidableEq α] (l : List α) {acc : List α}
    (h : acc.Nodup) : (l.foldl pyAdd acc).Nodup := by
  induction l generalizing acc with
  | nil => exact h
  | cons a l ih => exact ih (nodup_pyAdd h a)

theorem mem_firstDedup {α : Type} [DecidableEq α] (l : List α) (y : α) :
    y ∈ firstDedup l ↔ y ∈ l := by
  unfold firstDedup
  simp [mem_foldl_pyAdd]

theorem nodup_firstDedup {α : Type} [DecidableEq α] (l : List α) :
    (firstDedup l).Nodup := by
  unfold firstDedup
  exact nodup_foldl_pyAdd l List.nodup_nil

theorem foldl_flatMap {α β γ : Type} (f : γ → β → γ) (g : α → List β) (l : List α) (a : γ) :
    (l.flatMap g).foldl f a = l.foldl (fun acc x => (g x).foldl f acc) a := by
  induction l generalizing a with
  | nil => rfl
  | cons x l ih => simp [List.flatMap_cons, List.foldl_append, ih]

/-! ## The lexicographic string order used by `sorted(...)` -/

theorem chLe_total (a b : List Char) : chLe a b = true ∨ chLe b a = true := by
  induction a generalizing b with
  | nil => left; rfl
  | cons x xs ih =>
    cases b with
    | nil => right; rfl
    | cons y ys =>
      by_cases hxy : x = y
      · subst hxy
        simpa [chLe] using ih ys
      · have hyx : y ≠ x := fun h => hxy h.symm
        have hne : x.toNat ≠ y.toNat := fun hn => hxy (Char.eq_of_val_eq (UInt32.ext hn))
        rcases Nat.lt_or_ge x.toNat y.toNat with h | h
        · left; simp [chLe, hxy, h]
        · right
          have : y.toNat < x.toNat := lt_of_le_of_ne h (Ne.symm hne)
          simp [chLe, hyx, this]

theorem chLe_trans {a b c : List Char} (hab : chLe a b = true) (hbc : chLe b c = true) :
    chLe a c = true := by
  induction a generalizing b c with
  | nil => rfl
  | cons x xs ih =>
    cases b with
    | nil => simp [chLe] at hab
    | cons y ys =>
      cases c with
      | nil => simp [chLe] at hbc
      | cons z zs =>
        by_cases hxy : x = y <;> by_cases hyz : y = z
        · subst hxy; subst hyz
          simp only [chLe, if_pos rfl] at hab hbc ⊢
          exact ih hab hbc
        · subst hxy
          simp only [chLe, if_pos rfl] at hab
          simpa [chLe, hyz] using hbc
        · subst hyz
          simpa [chLe, hxy] using hab
        · simp only [chLe, if_neg hxy] at hab
          simp only [chLe, if_neg hyz] at hbc
          have h1 : x.toNat < y.toNat := by simpa using hab
          have h2 : y.toNat < z.toNat := by simpa using hbc
          have hxz : x ≠ z := by
            intro h
            subst h
            exact absurd (h1.trans h2) (lt_irrefl _)
          simp [chLe, hxz, h1.trans h2]

instance : IsTotal String strLe :=
  ⟨fun a b => chLe_total a.data b.data⟩

instance : IsTrans String strLe :=
  ⟨fun _ _ _ hab hbc => chLe_trans hab hbc⟩

/-! ## Lemmas about class tables (`classesOf`, `classMapOf`) -/

theorem classMapOf_nil (t : String) : classMapOf [] t = none := rfl

theorem findIdx?_go_succ {α : Type} (p : α → Bool) (l : List α) (i : Nat) :
    l.findIdx? p (i + 1) = (l.findIdx? p i).map (fun n => n + 1) := by
  induction l generalizing i with
  | nil => rfl
  | cons a l ih =>
    simp only [List.findIdx?_cons]
    by_cases h : p a
    · simp [h]
    · simp only [h, if_neg, Bool.false_eq_true, if_false]
      exact ih (i + 1)

theorem classMapOf_cons (t' t : String) (ts : List String) :
    classMapOf (t' :: ts) t =
      if t' = t then some 1 else (classMapOf ts t).map (fun n => n + 1) := by
  unfold classMapOf
  by_cases h : t' = t
  · simp [List.findIdx?_cons, h]
  · simp only [List.findIdx?_cons, decide_eq_true_eq, h, if_false, findIdx?_go_succ]

theorem classMapOf_pos {ts : List String} {t : String} {n : Nat}
    (h : classMapOf ts t = some n) : 1 ≤ n := by
  unfold classMapOf at h
  rcases Option.map_eq_some'.mp h with ⟨i, _, rfl⟩
  omega

theorem classMapOf_isSome_iff (ts : List String) (t : String) :
    (classMapOf ts t).isSome ↔ t ∈ ts := by
  induction ts with
  | nil => simp [classMapOf_nil]
  | cons t' ts ih =>
    rw [classMapOf_cons]
    by_cases h : t' = t
    · simp [h]
    · rw [if_neg h]
      have hmap : (Option.map (fun n => n + 1) (classMapOf ts t)).isSome
          = (classMapOf ts t).isSome := by
        cases classMapOf ts t <;> rfl
      rw [hmap, ih, List.mem_cons]
      have hne : t ≠ t' := fun hh => h hh.symm
      tauto

theorem classMapOf_le_length {ts : List String} {t : String} {n : Nat}
    (h : classMapOf ts t = some n) : n ≤ ts.length := by
  induction ts generalizing n with
  | nil => simp [classMapOf_nil] at h
  | cons t' ts ih =>
    rw [classMapOf_cons] at h
    by_cases ht : t' = t
    · rw [if_pos ht] at h
      have hn : n = 1 := by
        injection h with h
        omega
      subst hn
      simp
    · rw [if_neg ht] at h
      rcases Option.map_eq_some'.mp h with ⟨m, hm, rfl⟩
      have := ih hm
      simp
      omega

theorem classesOf_map_id (i : Nat) (ts : List String) :
    (classesOf i ts).map (fun c => c.id) = List.range' i ts.length := by
  induction ts generalizing i with
  | nil => rfl
  | cons t ts ih => simp [classesOf, List.range'_succ, ih]

theorem classesOf_map_title (i : Nat) (ts : List String) :
    (classesOf i ts).map (fun c => c.title) = ts := by
  induction ts generalizing i with
  | nil => rfl
  | cons t ts ih => simp [classesOf, ih]

theorem classesOf_find (ts : List String) (t : String) (n i : Nat)
    (h : classMapOf ts t = some n) :
    (classesOf i ts).find? (fun c => decide (c.id = n - 1 + i)) = some ⟨n - 1 + i, t⟩ := by
  induction ts generalizing n i with
  | nil => simp [classMapOf_nil] at h
  | cons t' ts ih =>
    rw [classMapOf_cons] at h
    by_cases ht : t' = t
    · subst ht
      rw [if_pos rfl] at h
      have hn : n = 1 := by
        injection h with h
        omega
      subst hn
      have hstep : List.find? (fun c => decide (c.id = 1 - 1 + i))
            ((⟨i, t'⟩ : SrcClass) :: classesOf (i + 1) ts) = some ⟨i, t'⟩ :=
        List.find?_cons_of_pos _ (by simp)
      show List.find? _ ((⟨i, t'⟩ : SrcClass) :: classesOf (i + 1) ts) = _
      rw [hstep]
      simp
    · rw [if_neg ht] at h
      rcases Option.map_eq_some'.mp h with ⟨m, hm, rfl⟩
      have hm1 : 1 ≤ m := classMapOf_pos hm
      have hrec := ih m (i + 1) hm
      have hstep : List.find? (fun c => decide (c.id = m + 1 - 1 + i))
            ((⟨i, t'⟩ : SrcClass) :: classesOf (i + 1) ts)
          = List.find? (fun c => decide (c.id = m + 1 - 1 + i)) (classesOf (i + 1) ts) :=
        List.find?_cons_of_neg _ (by simp; omega)
      show List.find? _ ((⟨i, t'⟩ : SrcClass) :: classesOf (i + 1) ts) = _
      rw [hstep]
      have harith : m - 1 + (i + 1) = m + 1 - 1 + i := by omega
      rw [harith] at hrec
      exact hrec

/-! ## The global title universe -/

/-- All class titles of all sources, in document order (specification-side). -/
def allTitles (sources : List Parsed) : List String :=
  sources.flatMap (fun src => src.classes.map (fun c => c.title))

theorem titleUniverse_eq_firstDedup (sources : List Parsed) :
    titleUniverse sources = firstDedup (allTitles sources) := by
  unfold titleUniverse firstDedup allTitles
  rw [foldl_flatMap]
  congr 1
  funext acc src
  rw [List.foldl_map]

theorem mem_titleUniverse (sources : List Parsed) (t : String) :
    t ∈ titleUniverse sources ↔ ∃ src ∈ sources, ∃ c ∈ src.classes, c.title = t := by
  rw [titleUniverse_eq_firstDedup, mem_firstDedup]
  unfold allTitles
  simp [List.mem_flatMap, eq_comm]

theorem nodup_titleUniverse (sources : List Parsed) :
    (titleUniverse sources).Nodup := by
  rw [titleUniverse_eq_firstDedup]
  exact nodup_firstDedup _

/-! ## Small list utilities -/

theorem countP_eq_one_of_nodup {α : Type} [DecidableEq α] {l : List α} (h : l.Nodup)
    {k : α} (hk : k ∈ l) : l.countP (fun x => decide (x = k)) = 1 := by
  induction l with
  | nil => cases hk
  | cons a l ih =>
    rw [List.nodup_cons] at h
    rw [List.countP_cons]
    rcases List.mem_cons.mp hk with rfl | hmem
    · have : l.countP (fun x => decide (x = k)) = 0 := by
        rw [List.countP_eq_zero]
        intro x hx
        simp only [decide_eq_true_eq]
        intro hxk
        exact h.1 (hxk ▸ hx)
      simp [this]
    · have hne : a ≠ k := fun hh => h.1 (hh ▸ hmem)
      simp [ih h.2 hmem, hne]

theorem countP_eq_zero_of_not_mem {α : Type} [DecidableEq α] {l : List α} {k : α}
    (hk : k ∉ l) : l.countP (fun x => decide (x = k)) = 0 := by
  rw [List.countP_eq_zero]
  intro x hx
  simp only [decide_eq_true_eq]
  intro hxk
  exact hk (hxk ▸ hx)

theorem find?_eq_some_of_nodup_key {α β : Type} [DecidableEq α]
    (l : List (α × β)) (e : α × β) (hn : (l.map (fun p => p.1)).Nodup)
    (he : e ∈ l) : l.find? (fun p => decide (p.1 = e.1)) = some e := by
  induction l with
  | nil => cases he
  | cons a l ih =>
    rw [List.map_cons, List.nodup_cons] at hn
    rcases List.mem_cons.mp he with rfl | hmem
    · exact List.find?_cons_of_pos _ (by simp)
    · have hne : a.1 ≠ e.1 := by
        intro hh
        exact hn.1 (hh ▸ List.mem_map_of_mem (fun p => p.1) hmem)
      rw [List.find?_cons_of_neg _ (by simpa using hne)]
      exact ih hn.2 hmem

/-! ## Sortedness of the title sort -/

theorem sortTitles_sorted (ts : List String) : List.Sorted strLe (sortTitles ts) :=
  List.sorted_insertionSort strLe ts

theorem sortTitles_perm (ts : List String) : (sortTitles ts).Perm ts :=
  List.perm_insertionSort strLe ts

theorem sortTitles_nodup {ts : List String} (h : ts.Nodup) : (sortTitles ts).Nodup :=
  ((sortTitles_perm ts).symm.nodup h)

theorem mem_sortTitles (ts : List String) (t : String) : t ∈ sortTitles ts ↔ t ∈ ts :=
  (sortTitles_perm ts).mem_iff

theorem sortTitles_pairwise_ne {ts : List String} (h : ts.Nodup) :
    List.Pairwise (fun a b => strLe a b ∧ a ≠ b) (sortTitles ts) := by
  have hs := sortTitles_sorted ts
  have hn : (sortTitles ts).Nodup := sortTitles_nodup h
  exact hs.and hn

/-! ## The merged-students accumulator -/

/-- Dict lookup in the merged-students accumulator. -/
def msLookup (m : List (Key × MS)) (k : Key) : Option MS :=
  (m.find? (fun p => decide (p.1 = k))).map (fun p => p.2)

/-- All students of all sources in merge iteration order. -/
def allStudents (sources : List Parsed) : List SrcStudent :=
  sources.flatMap (fun src => src.students)

/-- The resolved titles contributed to key `k` by a run of (source, student)
pairs, in contribution order. -/
def titlesOfKey (k : Key) (ps : List (Parsed × SrcStudent)) : List String :=
  (ps.filter (fun p => decide (skey p.2 = k))).flatMap (fun p => resolveTitles p.1 p.2)

theorem titlesOfKey_cons_pos {k : Key} {p : Parsed × SrcStudent} (ps : List (Parsed × SrcStudent))
    (h : skey p.2 = k) :
    titlesOfKey k (p :: ps) = resolveTitles p.1 p.2 ++ titlesOfKey k ps := by
  unfold titlesOfKey
  rw [List.filter_cons, if_pos (by simpa using h), List.flatMap_cons]

theorem titlesOfKey_cons_neg {k : Key} {p : Parsed × SrcStudent} (ps : List (Parsed × SrcStudent))
    (h : skey p.2 ≠ k) :
    titlesOfKey k (p :: ps) = titlesOfKey k ps := by
  unfold titlesOfKey
  rw [List.filter_cons, if_neg (by simpa using h)]

theorem msLookup_updAssoc_self (m : List (Key × MS)) (k : Key) (f : MS → MS) :
    msLookup (updAssoc m k f) k = (msLookup m k).map f := by
  induction m with
  | nil => rfl
  | cons a m ih =>
    unfold updAssoc msLookup
    by_cases h : a.1 = k
    · rw [List.map_cons, if_pos h,
        List.find?_cons_of_pos _ (by simpa using h),
        List.find?_cons_of_pos _ (by simpa using h)]
      rfl
    · rw [List.map_cons, if_neg h,
        List.find?_cons_of_neg _ (by simpa using h),
        List.find?_cons_of_neg _ (by simpa using h)]
      exact ih

theorem msLookup_updAssoc_other (m : List (Key × MS)) (k k' : Key) (f : MS → MS)
    (h : k' ≠ k) : msLookup (updAssoc m k' f) k = msLookup m k := by
  induction m with
  | nil => rfl
  | cons a m ih =>
    unfold updAssoc msLookup
    by_cases ha : a.1 = k'
    · have hk1 : ¬ (a.1 = k) := by
        rw [ha]
        exact h
      rw [List.map_cons, if_pos ha,
        List.find?_cons_of_neg _ (by simpa using hk1),
        List.find?_cons_of_neg _ (by simpa using hk1)]
      exact ih
    · rw [List.map_cons, if_neg ha]
      by_cases hk : a.1 = k
      · rw [List.find?_cons_of_pos _ (by simpa using hk),
          List.find?_cons_of_pos _ (by simpa using hk)]
      · rw [List.find?_cons_of_neg _ (by simpa using hk),
          List.find?_cons_of_neg _ (by simpa using hk)]
        exact ih

theorem msLookup_append_of_some {m : List (Key × MS)} {k : Key} {d : MS}
    (h : msLookup m k = some d) (l : List (Key × MS)) :
    msLookup (m ++ l) k = some d := by
  unfold msLookup at h ⊢
  rw [List.find?_append]
  rcases Option.map_eq_some'.mp h with ⟨p, hp, rfl⟩
  rw [hp]
  rfl

theorem msLookup_append_of_none {m : List (Key × MS)} {k : Key}
    (h : msLookup m k = none) (l : List (Key × MS)) :
    msLookup (m ++ l) k = msLookup l k := by
  unfold msLookup at h ⊢
  rw [List.find?_append]
  cases hf : m.find? (fun p => decide (p.1 = k)) with
  | some p => rw [hf] at h; cases h
  | none => rfl

theorem any_key_iff (m : List (Key × MS)) (k : Key) :
    (m.any (fun p => decide (p.1 = k)) = true) ↔ (msLookup m k).isSome := by
  unfold msLookup
  rw [List.any_eq_true, Option.isSome_map', List.find?_isSome]

theorem msLookup_insStudent_same (src : Parsed) (m : List (Key × MS)) (s : SrcStudent) :
    msLookup (insStudent src m s) (skey s) =
      some (match msLookup m (skey s) with
            | some d => ⟨d.name, d.email, d.age, (resolveTitles src s).foldl pyAdd d.titles⟩
            | none => ⟨s.name, s.email, s.age, (resolveTitles src s).foldl pyAdd []⟩) := by
  unfold insStudent
  by_cases h : (msLookup m (skey s)).isSome
  · rw [if_pos ((any_key_iff m (skey s)).mpr h)]
    rw [msLookup_updAssoc_self]
    rcases Option.isSome_iff_exists.mp h with ⟨d, hd⟩
    rw [hd]
    rfl
  · have hnone : msLookup m (skey s) = none := Option.not_isSome_iff_eq_none.mp h
    rw [if_neg (fun hc => h ((any_key_iff m (skey s)).mp hc))]
    rw [msLookup_append_of_none hnone]
    simp only [hnone]
    unfold msLookup
    rw [List.find?_cons_of_pos _ (by simp)]
    rfl

theorem msLookup_insStudent_other (src : Parsed) (m : List (Key × MS)) (s : SrcStudent)
    (k : Key) (h : skey s ≠ k) :
    msLookup (insStudent src m s) k = msLookup m k := by
  unfold insStudent
  by_cases hany : (m.any fun p => decide (p.1 = skey s)) = true
  · rw [if_pos hany]
    exact msLookup_updAssoc_other m k (skey s) _ h
  · rw [if_neg hany]
    by_cases hm : (msLookup m k).isSome
    · rcases Option.isSome_iff_exists.mp hm with ⟨d, hd⟩
      rw [msLookup_append_of_some hd, hd]
    · have hnone : msLookup m k = none := Option.not_isSome_iff_eq_none.mp hm
      rw [msLookup_append_of_none hnone, hnone]
      unfold msLookup
      rw [List.find?_cons_of_neg _ (by simpa using h)]
      rfl

/-- The student-merge step function of the fold. -/
def insStep (m : List (Key × MS)) (p : Parsed × SrcStudent) : List (Key × MS) :=
  insStudent p.1 m p.2

theorem mergedStudents_eq_foldl (sources : List Parsed) :
    mergedStudents sources = (studentPairs sources).foldl insStep [] := rfl

theorem lookup_foldl_ins_some (ps : List (Parsed × SrcStudent)) (m : List (Key × MS))
    (k : Key) (d : MS) (h : msLookup m k = some d) :
    msLookup (ps.foldl insStep m) k =
      some ⟨d.name, d.email, d.age, (titlesOfKey k ps).foldl pyAdd d.titles⟩ := by
  induction ps generalizing m d with
  | nil =>
    rw [List.foldl_nil, h]
    rfl
  | cons p ps ih =>
    rw [List.foldl_cons]
    by_cases hk : skey p.2 = k
    · have hstep : msLookup (insStep m p) k =
          some ⟨d.name, d.email, d.age, (resolveTitles p.1 p.2).foldl pyAdd d.titles⟩ := by
        have hsame := msLookup_insStudent_same p.1 m p.2
        rw [hk, h] at hsame
        exact hsame
      rw [ih _ _ hstep, titlesOfKey_cons_pos ps hk, List.foldl_append]
    · have hstep : msLookup (insStep m p) k = some d :=
        (msLookup_insStudent_other p.1 m p.2 k hk).trans h
      rw [ih _ _ hstep, titlesOfKey_cons_neg ps hk]

theorem lookup_foldl_ins_none (ps : List (Parsed × SrcStudent)) (m : List (Key × MS))
    (k : Key) (h : msLookup m k = none) :
    msLookup (ps.foldl insStep m) k =
      match ps.find? (fun p => decide (skey p.2 = k)) with
      | none => none
      | some p0 =>
        some ⟨p0.2.name, p0.2.email, p0.2.age, (titlesOfKey k ps).foldl pyAdd []⟩ := by
  induction ps generalizing m with
  | nil =>
    rw [List.foldl_nil, h]
    rfl
  | cons p ps ih =>
    rw [List.foldl_cons]
    by_cases hk : skey p.2 = k
    · rw [List.find?_cons_of_pos _ (by simpa using hk)]
      have hcreate : msLookup (insStep m p) k =
          some ⟨p.2.name, p.2.email, p.2.age, (resolveTitles p.1 p.2).foldl pyAdd []⟩ := by
        have hsame := msLookup_insStudent_same p.1 m p.2
        rw [hk, h] at hsame
        exact hsame
      rw [lookup_foldl_ins_some ps _ k _ hcreate, titlesOfKey_cons_pos ps hk,
        List.foldl_append]
    · rw [List.find?_cons_of_neg _ (by simpa using hk)]
      have hstep : msLookup (insStep m p) k = none :=
        (msLookup_insStudent_other p.1 m p.2 k hk).trans h
      rw [ih _ hstep, titlesOfKey_cons_neg ps hk]

theorem keys_updAssoc (m : List (Key × MS)) (k : Key) (f : MS → MS) :
    (updAssoc m k f).map (fun p => p.1) = m.map (fun p => p.1) := by
  unfold updAssoc
  rw [List.map_map]
  apply List.map_congr_left
  intro p _
  by_cases h : p.1 = k <;> simp [h]

theorem keys_insStudent (src : Parsed) (m : List (Key × MS)) (s : SrcStudent) :
    (insStudent src m s).map (fun p => p.1) = pyAdd (m.map (fun p => p.1)) (skey s) := by
  unfold insStudent pyAdd
  by_cases h : (m.any fun p => decide (p.1 = skey s)) = true
  · have hmem : skey s ∈ m.map (fun p => p.1) := by
      rcases List.any_eq_true.mp h with ⟨p, hp, hpk⟩
      simp only [decide_eq_true_eq] at hpk
      exact hpk ▸ List.mem_map_of_mem _ hp
    rw [if_pos h, if_pos hmem, keys_updAssoc]
  · have hmem : skey s ∉ m.map (fun p => p.1) := by
      intro hc
      rcases List.mem_map.mp hc with ⟨p, hp, hpk⟩
      exact h (List.any_eq_true.mpr ⟨p, hp, by simpa using hpk⟩)
    rw [if_neg h, if_neg hmem, List.map_append]
    rfl

theorem keys_foldl_ins (ps : List (Parsed × SrcStudent)) (m : List (Key × MS)) :
    (ps.foldl insStep m).map (fun p => p.1) =
      (ps.map (fun p => skey p.2)).foldl pyAdd (m.map (fun p => p.1)) := by
  induction ps generalizing m with
  | nil => rfl
  | cons p ps ih =>
    rw [List.foldl_cons, List.map_cons, List.foldl_cons, ih]
    have hstep : (insStep m p).map (fun q => q.1) = pyAdd (m.map (fun q => q.1)) (skey p.2) :=
      keys_insStudent p.1 m p.2
    rw [hstep]

theorem keys_mergedStudents (sources : List Parsed) :
    (mergedStudents sources).map (fun p => p.1) =
      firstDedup ((allStudents sources).map skey) := by
  rw [mergedStudents_eq_foldl, keys_foldl_ins]
  have hmap : (studentPairs sources).map (fun p => skey p.2) =
      (allStudents sources).map skey := by
    unfold studentPairs allStudents
    rw [List.map_flatMap, List.map_flatMap]
    congr 1
    funext src
    rw [List.map_map]
    rfl
  rw [hmap]
  rfl

theorem nodup_keys_mergedStudents (sources : List Parsed) :
    ((mergedStudents sources).map (fun p => p.1)).Nodup := by
  rw [keys_mergedStudents]
  exact nodup_firstDedup _

theorem mem_keys_mergedStudents (sources : List Parsed) (k : Key) :
    k ∈ (mergedStudents sources).map (fun p => p.1) ↔
      ∃ s ∈ allStudents sources, skey s = k := by
  rw [keys_mergedStudents, mem_firstDedup]
  simp [List.mem_map, eq_comm]

/-! ## Invariants of the merged-students entries -/

/-- Well-formedness of one accumulator entry: the stored name/email are
consistent with the entry's key, and the title set is duplicate-free and drawn
from the given title universe. -/
def entryOk (u : List String) (e : Key × MS) : Prop :=
  (e.2.name, e.2.email.getD "") = e.1 ∧ e.2.titles.Nodup ∧ ∀ t ∈ e.2.titles, t ∈ u

theorem entryOk_insStudent (u : List String) (src : Parsed) (m : List (Key × MS))
    (s : SrcStudent) (hm : ∀ e ∈ m, entryOk u e)
    (hs : ∀ t ∈ resolveTitles src s, t ∈ u) :
    ∀ e ∈ insStudent src m s, entryOk u e := by
  unfold insStudent
  by_cases h : (m.any fun p => decide (p.1 = skey s)) = true
  · rw [if_pos h]
    intro e he
    unfold updAssoc at he
    rcases List.mem_map.mp he with ⟨p, hp, rfl⟩
    by_cases hpk : p.1 = skey s
    · rw [if_pos hpk]
      rcases hm p hp with ⟨hkey, hnodup, hsub⟩
      refine ⟨hkey, nodup_foldl_pyAdd _ hnodup, ?_⟩
      intro t ht
      rcases (mem_foldl_pyAdd _ _ _).mp ht with h1 | h2
      · exact hsub t h1
      · exact hs t h2
    · rw [if_neg hpk]
      exact hm p hp
  · rw [if_neg h]
    intro e he
    rcases List.mem_append.mp he with h1 | h2
    · exact hm e h1
    · have h2' := List.mem_singleton.mp h2
      subst h2'
      refine ⟨rfl, nodup_foldl_pyAdd _ List.nodup_nil, ?_⟩
      intro t ht
      rcases (mem_foldl_pyAdd _ _ _).mp ht with h1 | h2
      · cases h1
      · exact hs t h2

theorem resolveTitles_subset_universe (sources : List Parsed) (src : Parsed) (s : SrcStudent)
    (hsrc : src ∈ sources) : ∀ t ∈ resolveTitles src s, t ∈ titleUniverse sources := by
  intro t ht
  unfold resolveTitles at ht
  rcases List.mem_filterMap.mp ht with ⟨cid, _, hc⟩
  cases hcid : class_id_to_title src cid with
  | none => rw [hcid] at hc; cases hc
  | some t' =>
    rw [hcid] at hc
    change (if t' = "" then none else some t') = some t at hc
    by_cases ht' : t' = ""
    · rw [if_pos ht'] at hc; cases hc
    · rw [if_neg ht'] at hc
      injection hc with hc
      subst hc
      unfold class_id_to_title at hcid
      rcases Option.map_eq_some'.mp hcid with ⟨c, hfind, rfl⟩
      exact (mem_titleUniverse sources _).mpr
        ⟨src, hsrc, c, List.mem_of_find?_eq_some hfind, rfl⟩

theorem entryOk_foldl_ins (u : List String) (ps : List (Parsed × SrcStudent))
    (m : List (Key × MS)) (hm : ∀ e ∈ m, entryOk u e)
    (hps : ∀ p ∈ ps, ∀ t ∈ resolveTitles p.1 p.2, t ∈ u) :
    ∀ e ∈ ps.foldl insStep m, entryOk u e := by
  induction ps generalizing m with
  | nil => exact hm
  | cons p ps ih =>
    rw [List.foldl_cons]
    exact ih _ (entryOk_insStudent u p.1 m p.2 hm (hps p (List.mem_cons_self _ _)))
      (fun q hq => hps q (List.mem_cons_of_mem _ hq))

theorem entryOk_mergedStudents (sources : List Parsed) :
    ∀ e ∈ mergedStudents sources, entryOk (titleUniverse sources) e := by
  rw [mergedStudents_eq_foldl]
  apply entryOk_foldl_ins _ _ _ (by intro e he; cases he)
  intro p hp
  rcases List.mem_flatMap.mp hp with ⟨src, hsrc, hmem⟩
  rcases List.mem_map.mp hmem with ⟨s, _, rfl⟩
  exact resolveTitles_subset_universe sources src s hsrc

/-! ## The final merged students list -/

theorem studentsOf_map_id (u : List String) (i : Nat) (m : List (Key × MS)) :
    (studentsOf u i m).map (fun s => s.id) = List.range' i m.length := by
  induction m generalizing i with
  | nil => rfl
  | cons e m ih =>
    obtain ⟨k, d⟩ := e
    simp only [studentsOf, List.map_cons, List.length_cons, List.range'_succ]
    rw [ih]

theorem studentsOf_map_key (u : List String) (i : Nat) (m : List (Key × MS))
    (hm : ∀ e ∈ m, (e.2.name, e.2.email.getD "") = e.1) :
    (studentsOf u i m).map skey = m.map (fun p => p.1) := by
  induction m generalizing i with
  | nil => rfl
  | cons e m ih =>
    obtain ⟨k, d⟩ := e
    simp only [studentsOf, List.map_cons]
    rw [ih _ (fun e he => hm e (List.mem_cons_of_mem _ he))]
    congr 1
    exact hm (k, d) (List.mem_cons_self _ _)

theorem mem_studentsOf_entry (u : List String) (i : Nat) (m : List (Key × MS)) (p : SrcStudent)
    (hp : p ∈ studentsOf u i m) :
    ∃ e ∈ m, p.name = e.2.name ∧ p.email = e.2.email ∧ p.age = e.2.age ∧
      p.enrolled_classes = (sortTitles e.2.titles).filterMap (classMapOf u) := by
  induction m generalizing i with
  | nil => cases hp
  | cons e m ih =>
    obtain ⟨k, d⟩ := e
    simp only [studentsOf] at hp
    rcases List.mem_cons.mp hp with rfl | hmem
    · exact ⟨(k, d), List.mem_cons_self _ _, rfl, rfl, rfl, rfl⟩
    · rcases ih (i + 1) hmem with ⟨e', he', h⟩
      exact ⟨e', List.mem_cons_of_mem _ he', h⟩

theorem msLookup_of_mem_nodup {m : List (Key × MS)} {e : Key × MS}
    (hn : (m.map (fun p => p.1)).Nodup) (he : e ∈ m) :
    msLookup m e.1 = some e.2 := by
  unfold msLookup
  rw [find?_eq_some_of_nodup_key m e hn he]
  rfl

/-! ## Generic facts about `findIdx?`-based dict position lookups -/

theorem findIdx?_isSome_iff {α : Type} (p : α → Bool) (l : List α) :
    (l.findIdx? p).isSome ↔ ∃ x ∈ l, p x = true := by
  induction l with
  | nil => simp [List.findIdx?]
  | cons a l ih =>
    rw [List.findIdx?_cons]
    by_cases h : p a = true
    · simp [h]
    · have hgo : l.findIdx? p 1 = (l.findIdx? p).map (fun n => n + 1) := findIdx?_go_succ p l 0
      rw [if_neg h, hgo]
      rw [Option.isSome_map']
      rw [ih]
      simp [List.mem_cons]
      tauto

theorem findIdx?_lt_length {α : Type} {p : α → Bool} {l : List α} {i : Nat}
    (h : l.findIdx? p = some i) : i < l.length := by
  induction l generalizing i with
  | nil => cases h
  | cons a l ih =>
    rw [List.findIdx?_cons] at h
    by_cases hp : p a = true
    · rw [if_pos hp] at h
      injection h with h
      simp [← h]
    · rw [if_neg hp, findIdx?_go_succ p l 0] at h
      rcases Option.map_eq_some'.mp h with ⟨j, hj, rfl⟩
      have := ih hj
      simp
      omega

theorem key_to_new_id_isSome_iff (sources : List Parsed) (k : Key) :
    (key_to_new_id sources k).isSome ↔ ∃ s ∈ allStudents sources, skey s = k := by
  unfold key_to_new_id
  rw [Option.isSome_map', findIdx?_isSome_iff]
  rw [← mem_keys_mergedStudents]
  constructor
  · rintro ⟨x, hx, hxk⟩
    simp only [decide_eq_true_eq] at hxk
    exact hxk ▸ hx
  · intro hk
    exact ⟨k, hk, by simp⟩

theorem key_to_new_id_pos {sources : List Parsed} {k : Key} {n : Nat}
    (h : key_to_new_id sources k = some n) : 1 ≤ n := by
  unfold key_to_new_id at h
  rcases Option.map_eq_some'.mp h with ⟨i, _, rfl⟩
  omega

theorem key_to_new_id_le {sources : List Parsed} {k : Key} {n : Nat}
    (h : key_to_new_id sources k = some n) : n ≤ (mergedStudents sources).length := by
  unfold key_to_new_id at h
  rcases Option.map_eq_some'.mp h with ⟨i, hi, rfl⟩
  have := findIdx?_lt_length hi
  simpa using Nat.succ_le_of_lt this

/-! ## Characterization of the merged grade list -/

/-- Specification-side description of how one source grade is resolved during
the merge: find the owning student by local id, resolve the class id to a
title in the same document, drop the grade when either fails or the title is
empty, and otherwise remap to the global student and class ids. -/
def gradeResolved (sources : List Parsed) (u : List String) (src : Parsed)
    (g : SrcGrade) : Option SrcGrade :=
  match src.students.find? (fun x => decide (x.id = g.student_id)) with
  | none => none
  | some st =>
    match class_id_to_title src g.class_id with
    | none => none
    | some t =>
      if t = "" then none
      else
        some ⟨(key_to_new_id sources (skey st)).getD 0, (classMapOf u t).getD 0,
              g.score, g.feedback⟩

theorem filterMap_congr_mem {α β : Type} {f g : α → Option β} (l : List α)
    (h : ∀ a ∈ l, f a = g a) : l.filterMap f = l.filterMap g := by
  induction l with
  | nil => rfl
  | cons a l ih =>
    rw [List.filterMap_cons, List.filterMap_cons, h a (List.mem_cons_self _ _),
      ih (fun x hx => h x (List.mem_cons_of_mem _ hx))]

theorem flatMap_congr_mem {α β : Type} {f g : α → List β} (l : List α)
    (h : ∀ a ∈ l, f a = g a) : l.flatMap f = l.flatMap g := by
  induction l with
  | nil => rfl
  | cons a l ih =>
    rw [List.flatMap_cons, List.flatMap_cons, h a (List.mem_cons_self _ _),
      ih (fun x hx => h x (List.mem_cons_of_mem _ hx))]

theorem mergeParsed_grades_eq (main : Parsed) (details : List Parsed) :
    (mergeParsed main details).grades =
      (main :: details).flatMap
        (fun src => src.grades.filterMap
          (gradeResolved (main :: details) (titleUniverse (main :: details)) src)) := by
  show ((mergedGradesOf (main :: details)).filterMap _) = _
  unfold mergedGradesOf
  rw [List.filterMap_flatMap]
  apply flatMap_congr_mem
  intro src hsrc
  rw [List.filterMap_filterMap]
  apply filterMap_congr_mem
  intro g _
  cases hfind : src.students.find? (fun x => decide (x.id = g.student_id)) with
  | none => simp [gradeResolved, hfind]
  | some st =>
    cases hcid : class_id_to_title src g.class_id with
    | none => simp [gradeResolved, hfind, hcid]
    | some t =>
      by_cases ht : t = ""
      · simp [gradeResolved, hfind, hcid, ht]
      · simp only [gradeResolved, hfind, hcid, if_neg ht, Option.some_bind]
        have hkey : (key_to_new_id (main :: details) (skey st)).isSome := by
          rw [key_to_new_id_isSome_iff]
          refine ⟨st, ?_, rfl⟩
          unfold allStudents
          exact List.mem_flatMap.mpr ⟨src, hsrc, List.mem_of_find?_eq_some hfind⟩
        rcases Option.isSome_iff_exists.mp hkey with ⟨ns, hns⟩
        have hcm : (classMapOf (titleUniverse (main :: details)) t).isSome := by
          rw [classMapOf_isSome_iff]
          rw [mem_titleUniverse]
          unfold class_id_to_title at hcid
          rcases Option.map_eq_some'.mp hcid with ⟨c, hc, rfl⟩
          exact ⟨src, hsrc, c, List.mem_of_find?_eq_some hc, rfl⟩
        rcases Option.isSome_iff_exists.mp hcm with ⟨nc, hnc⟩
        have hns1 : 1 ≤ ns := key_to_new_id_pos hns
        have hnc1 : 1 ≤ nc := classMapOf_pos hnc
        rw [hns, hnc]
        have hcond : ns ≠ 0 ∧ nc ≠ 0 := ⟨by omega, by omega⟩
        change (if ns ≠ 0 ∧ nc ≠ 0 then
            some (⟨ns, nc, g.score, g.feedback⟩ : SrcGrade) else none) = _
        rw [if_pos hcond]
        rfl

/-! ## Projections and referential integrity of the merged dataset -/

theorem mergeParsed_classes (main : Parsed) (details : List Parsed) :
    (mergeParsed main details).classes = classesOf 1 (titleUniverse (main :: details)) := rfl

theorem mergeParsed_students (main : Parsed) (details : List Parsed) :
    (mergeParsed main details).students =
      studentsOf (titleUniverse (main :: details)) 1 (mergedStudents (main :: details)) := rfl

theorem mem_students_of_id (main : Parsed) (details : List Parsed) {n : Nat}
    (h1 : 1 ≤ n) (h2 : n ≤ (mergedStudents (main :: details)).length) :
    ∃ s ∈ (mergeParsed main details).students, s.id = n := by
  have hmap := studentsOf_map_id (titleUniverse (main :: details)) 1
    (mergedStudents (main :: details))
  have hmem : n ∈ ((mergeParsed main details).students.map (fun s => s.id)) := by
    rw [mergeParsed_students, hmap, List.mem_range']
    exact ⟨n - 1, by omega, by omega⟩
  rcases List.mem_map.mp hmem with ⟨s, hs, hid⟩
  exact ⟨s, hs, hid⟩

theorem mem_classes_of_id (main : Parsed) (details : List Parsed) {n : Nat}
    (h1 : 1 ≤ n) (h2 : n ≤ (titleUniverse (main :: details)).length) :
    ∃ c ∈ (mergeParsed main details).classes, c.id = n := by
  have hmap := classesOf_map_id 1 (titleUniverse (main :: details))
  have hmem : n ∈ ((mergeParsed main details).classes.map (fun c => c.id)) := by
    rw [mergeParsed_classes, hmap, List.mem_range']
    exact ⟨n - 1, by omega, by omega⟩
  rcases List.mem_map.mp hmem with ⟨c, hc, hid⟩
  exact ⟨c, hc, hid⟩

theorem grade_refs_exist (main : Parsed) (details : List Parsed) :
    ∀ g ∈ (mergeParsed main details).grades,
      (∃ s ∈ (mergeParsed main details).students, s.id = g.student_id) ∧
      (∃ c ∈ (mergeParsed main details).classes, c.id = g.class_id) := by
  intro g hg
  rw [mergeParsed_grades_eq] at hg
  rcases List.mem_flatMap.mp hg with ⟨src, hsrc, hmem⟩
  rcases List.mem_filterMap.mp hmem with ⟨g0, _, hres⟩
  unfold gradeResolved at hres
  cases hfind : src.students.find? (fun x => decide (x.id = g0.student_id)) with
  | none => rw [hfind] at hres; cases hres
  | some st =>
    rw [hfind] at hres
    cases hcid : class_id_to_title src g0.class_id with
    | none => rw [hcid] at hres; cases hres
    | some t =>
      rw [hcid] at hres
      change (if t = "" then none else some _) = some g at hres
      by_cases ht : t = ""
      · rw [if_pos ht] at hres; cases hres
      · rw [if_neg ht] at hres
        injection hres with hres
        subst hres
        have hkey : (key_to_new_id (main :: details) (skey st)).isSome := by
          rw [key_to_new_id_isSome_iff]
          refine ⟨st, ?_, rfl⟩
          unfold allStudents
          exact List.mem_flatMap.mpr ⟨src, hsrc, List.mem_of_find?_eq_some hfind⟩
        rcases Option.isSome_iff_exists.mp hkey with ⟨ns, hns⟩
        have hcm : (classMapOf (titleUniverse (main :: details)) t).isSome := by
          rw [classMapOf_isSome_iff, mem_titleUniverse]
          unfold class_id_to_title at hcid
          rcases Option.map_eq_some'.mp hcid with ⟨c, hc, rfl⟩
          exact ⟨src, hsrc, c, List.mem_of_find?_eq_some hc, rfl⟩
        rcases Option.isSome_iff_exists.mp hcm with ⟨nc, hnc⟩
        constructor
        · rw [hns]
          exact mem_students_of_id main details (key_to_new_id_pos hns) (key_to_new_id_le hns)
        · rw [hnc]
          exact mem_classes_of_id main details (classMapOf_pos hnc) (classMapOf_le_length hnc)

/-! ## The merged students and classes do not depend on any grade list -/

theorem resolveTitles_congr {src src' : Parsed} (h : src.classes = src'.classes)
    (s : SrcStudent) : resolveTitles src s = resolveTitles src' s := by
  unfold resolveTitles class_id_to_title
  rw [h]

theorem insStudent_congr {src src' : Parsed} (h : src.classes = src'.classes)
    (m : List (Key × MS)) (s : SrcStudent) : insStudent src m s = insStudent src' m s := by
  unfold insStudent
  rw [resolveTitles_congr h]

theorem titleUniverse_congr {sources sources' : List Parsed}
    (h : sources.map (fun p => p.classes) = sources'.map (fun p => p.classes)) :
    titleUniverse sources = titleUniverse sources' := by
  unfold titleUniverse
  have e1 := List.foldl_map (fun p : Parsed => p.classes)
    (fun acc cls => cls.foldl (fun acc c => pyAdd acc c.title) acc) sources ([] : List String)
  have e2 := List.foldl_map (fun p : Parsed => p.classes)
    (fun acc cls => cls.foldl (fun acc c => pyAdd acc c.title) acc) sources' ([] : List String)
  rw [← e1, ← e2, h]

theorem studentPairs_foldl_congr :
    ∀ (sources sources' : List Parsed),
      sources.map (fun p => (p.students, p.classes)) =
        sources'.map (fun p => (p.students, p.classes)) →
      ∀ m, (studentPairs sources).foldl insStep m = (studentPairs sources').foldl insStep m := by
  intro sources
  induction sources with
  | nil =>
    intro sources' h m
    cases sources' with
    | nil => rfl
    | cons a l => cases h
  | cons src rest ih =>
    intro sources' h m
    cases sources' with
    | nil => cases h
    | cons src' rest' =>
      rw [List.map_cons, List.map_cons] at h
      injection h with h1 h2
      have hs : src.students = src'.students := congrArg Prod.fst h1
      have hc : src.classes = src'.classes := congrArg Prod.snd h1
      unfold studentPairs
      rw [List.flatMap_cons, List.flatMap_cons, List.foldl_append, List.foldl_append]
      have hfun : ∀ (l : List SrcStudent) m0,
          (l.map (fun s => (src, s))).foldl insStep m0 =
            (l.map (fun s => (src', s))).foldl insStep m0 := by
        intro l
        induction l with
        | nil => intro m0; rfl
        | cons s l ihl =>
          intro m0
          rw [List.map_cons, List.map_cons, List.foldl_cons, List.foldl_cons,
            show insStep m0 (src, s) = insStep m0 (src', s) from insStudent_congr hc m0 s]
          exact ihl _
      rw [hs, hfun]
      exact ih rest' h2 _

theorem mergedStudents_congr {sources sources' : List Parsed}
    (h : sources.map (fun p => (p.students, p.classes)) =
      sources'.map (fun p => (p.students, p.classes))) :
    mergedStudents sources = mergedStudents sources' := by
  rw [mergedStudents_eq_foldl, mergedStudents_eq_foldl]
  exact studentPairs_foldl_congr _ _ h []

theorem mergeParsed_students_classes_congr (main main' : Parsed)
    (details details' : List Parsed)
    (hm : (main.students, main.classes) = (main'.students, main'.classes))
    (hd : details.map (fun p => (p.students, p.classes)) =
      details'.map (fun p => (p.students, p.classes))) :
    (mergeParsed main details).students = (mergeParsed main' details').students ∧
      (mergeParsed main details).classes = (mergeParsed main' details').classes := by
  have hsrcs : (main :: details).map (fun p => (p.students, p.classes)) =
      (main' :: details').map (fun p => (p.students, p.classes)) := by
    rw [List.map_cons, List.map_cons, hm, hd]
  have hcls : (main :: details).map (fun p => p.classes) =
      (main' :: details').map (fun p => p.classes) := by
    have : ∀ (l : List Parsed), l.map (fun p => p.classes) =
        (l.map (fun p => (p.students, p.classes))).map (fun q => q.2) := by
      intro l
      rw [List.map_map]
      rfl
    rw [this, this, hsrcs]
  have hu : titleUniverse (main :: details) = titleUniverse (main' :: details') :=
    titleUniverse_congr hcls
  have hms : mergedStudents (main :: details) = mergedStudents (main' :: details') :=
    mergedStudents_congr hsrcs
  constructor
  · rw [mergeParsed_students, mergeParsed_students, hu, hms]
  · rw [mergeParsed_classes, mergeParsed_classes, hu]

/-! ## Relating enrolled class ids back to titles -/

/-- The title stored in a class table for a given id (empty string when the id
is absent) — how a consumer reads a global class id back. -/
def titleOfId (classes : List SrcClass) (i : Nat) : String :=
  ((classes.find? (fun c => decide (c.id = i))).map (fun c => c.title)).getD ""

theorem titleOfId_classMapOf {u : List String} {t : String} {n : Nat}
    (h : classMapOf u t = some n) : titleOfId (classesOf 1 u) n = t := by
  have hfind := classesOf_find u t n 1 h
  have harith : n - 1 + 1 = n := by
    have := classMapOf_pos h
    omega
  rw [harith] at hfind
  unfold titleOfId
  rw [hfind]
  rfl

theorem enrolled_pairwise_titles (u : List String) (ts : List String) (hn : ts.Nodup) :
    List.Pairwise
      (fun a b => strLe (titleOfId (classesOf 1 u) a) (titleOfId (classesOf 1 u) b) ∧
        titleOfId (classesOf 1 u) a ≠ titleOfId (classesOf 1 u) b)
      ((sortTitles ts).filterMap (classMapOf u)) := by
  have hp := sortTitles_pairwise_ne hn
  rw [List.pairwise_filterMap]
  apply hp.imp
  intro t t' hr a ha b hb
  have hta := titleOfId_classMapOf (Option.mem_def.mp ha)
  have htb := titleOfId_classMapOf (Option.mem_def.mp hb)
  rw [hta, htb]
  exact hr

/-! ## Per-key characterization of merged students -/

theorem mem_studentPairs (sources : List Parsed) (p : Parsed × SrcStudent) :
    p ∈ studentPairs sources ↔ p.1 ∈ sources ∧ p.2 ∈ p.1.students := by
  unfold studentPairs
  rw [List.mem_flatMap]
  constructor
  · rintro ⟨src, hsrc, hp⟩
    rcases List.mem_map.mp hp with ⟨s, hs, rfl⟩
    exact ⟨hsrc, hs⟩
  · rintro ⟨h1, h2⟩
    exact ⟨p.1, h1, List.mem_map.mpr ⟨p.2, h2, rfl⟩⟩

theorem studentPairs_map_snd (sources : List Parsed) :
    (studentPairs sources).map (fun p => p.2) = allStudents sources := by
  unfold studentPairs allStudents
  rw [List.map_flatMap]
  apply flatMap_congr_mem
  intro src _
  rw [List.map_map]
  exact List.map_id _

theorem mergedStudents_lookup (sources : List Parsed) (k : Key) :
    msLookup (mergedStudents sources) k =
      match (studentPairs sources).find? (fun p => decide (skey p.2 = k)) with
      | none => none
      | some p0 =>
        some ⟨p0.2.name, p0.2.email, p0.2.age,
              (titlesOfKey k (studentPairs sources)).foldl pyAdd []⟩ := by
  rw [mergedStudents_eq_foldl]
  exact lookup_foldl_ins_none _ [] k rfl

theorem find?_studentPairs (sources : List Parsed) (k : Key) :
    (allStudents sources).find? (fun s => decide (skey s = k)) =
      ((studentPairs sources).find? (fun p => decide (skey p.2 = k))).map (fun p => p.2) := by
  rw [← studentPairs_map_snd, List.find?_map]
  rfl

theorem mem_titlesOfKey (sources : List Parsed) (k : Key) (t : String) :
    t ∈ titlesOfKey k (studentPairs sources) ↔
      ∃ src ∈ sources, ∃ st ∈ src.students, skey st = k ∧ t ∈ resolveTitles src st := by
  unfold titlesOfKey
  rw [List.mem_flatMap]
  constructor
  · rintro ⟨p, hp, ht⟩
    rcases List.mem_filter.mp hp with ⟨hmem, hk⟩
    rcases (mem_studentPairs sources p).mp hmem with ⟨h1, h2⟩
    exact ⟨p.1, h1, p.2, h2, by simpa using hk, ht⟩
  · rintro ⟨src, hsrc, st, hst, hk, ht⟩
    refine ⟨(src, st), List.mem_filter.mpr ⟨?_, by simpa using hk⟩, ht⟩
    exact (mem_studentPairs sources (src, st)).mpr ⟨hsrc, hst⟩

theorem mem_resolveTitles (src : Parsed) (s : SrcStudent) (t : String) :
    t ∈ resolveTitles src s ↔
      t ≠ "" ∧ ∃ cid ∈ s.enrolled_classes, class_id_to_title src cid = some t := by
  unfold resolveTitles
  rw [List.mem_filterMap]
  constructor
  · rintro ⟨cid, hcid, hc⟩
    cases hl : class_id_to_title src cid with
    | none => rw [hl] at hc; cases hc
    | some t' =>
      rw [hl] at hc
      change (if t' = "" then none else some t') = some t at hc
      by_cases ht' : t' = ""
      · rw [if_pos ht'] at hc; cases hc
      · rw [if_neg ht'] at hc
        injection hc with hc
        subst hc
        exact ⟨ht', cid, hcid, hl⟩
  · rintro ⟨ht, cid, hcid, hl⟩
    refine ⟨cid, hcid, ?_⟩
    rw [hl]
    change (if t = "" then none else some t) = some t
    rw [if_neg ht]

theorem student_key_data (main : Parsed) (details : List Parsed) (p : SrcStudent)
    (hp : p ∈ (mergeParsed main details).students) :
    ∃ d, msLookup (mergedStudents (main :: details)) (skey p) = some d ∧
      p.name = d.name ∧ p.email = d.email ∧ p.age = d.age ∧
      p.enrolled_classes =
        (sortTitles d.titles).filterMap (classMapOf (titleUniverse (main :: details))) ∧
      d.titles.Nodup ∧ (∀ t ∈ d.titles, t ∈ titleUniverse (main :: details)) := by
  rw [mergeParsed_students] at hp
  rcases mem_studentsOf_entry _ _ _ _ hp with ⟨e, he, hname, hemail, hage, henr⟩
  have hok := entryOk_mergedStudents (main :: details) e he
  have hkey : skey p = e.1 := by
    unfold skey
    rw [hname, hemail]
    exact hok.1
  rw [hkey]
  exact ⟨e.2, msLookup_of_mem_nodup (nodup_keys_mergedStudents _) he, hname, hemail, hage,
    henr, hok.2.1, hok.2.2⟩

theorem one_student_per_key (main : Parsed) (details : List Parsed) (k : Key)
    (hk : ∃ s ∈ allStudents (main :: details), skey s = k) :
    ((mergeParsed main details).students.filter (fun s => decide (skey s = k))).length = 1 := by
  rw [← List.countP_eq_length_filter]
  have hcp : (mergeParsed main details).students.countP (fun s => decide (skey s = k)) =
      ((mergeParsed main details).students.map skey).countP (fun x => decide (x = k)) := by
    rw [List.countP_map]
    rfl
  rw [hcp, mergeParsed_students,
    studentsOf_map_key _ _ _ (fun e he => (entryOk_mergedStudents (main :: details) e he).1)]
  exact countP_eq_one_of_nodup (nodup_keys_mergedStudents _)
    ((mem_keys_mergedStudents _ k).mpr hk)

theorem findIdx?_prop {α : Type} {p : α → Bool} {l : List α} {i : Nat}
    (h : l.findIdx? p = some i) (hlen : i < l.length) : p (l.get ⟨i, hlen⟩) = true := by
  induction l generalizing i with
  | nil => cases h
  | cons a l ih =>
    rw [List.findIdx?_cons] at h
    by_cases hp : p a = true
    · rw [if_pos hp] at h
      injection h with h
      subst h
      exact hp
    · rw [if_neg hp, findIdx?_go_succ p l 0] at h
      rcases Option.map_eq_some'.mp h with ⟨j, hj, rfl⟩
      exact ih hj (by simpa using Nat.lt_of_succ_lt_succ (by simpa using hlen))

theorem student_of_key_to_new_id (main : Parsed) (details : List Parsed) (k : Key) (n : Nat)
    (h : key_to_new_id (main :: details) k = some n) :
    ∃ p ∈ (mergeParsed main details).students, p.id = n ∧ skey p = k := by
  unfold key_to_new_id at h
  rcases Option.map_eq_some'.mp h with ⟨i, hi, rfl⟩
  have hilt : i < ((mergedStudents (main :: details)).map (fun p => p.1)).length :=
    findIdx?_lt_length hi
  have hkeyi := findIdx?_prop hi hilt
  simp only [decide_eq_true_eq, List.get_eq_getElem] at hkeyi
  have hkopt : ((mergedStudents (main :: details)).map (fun p => p.1))[i]? = some k := by
    rw [List.getElem?_eq_getElem hilt, hkeyi]
  have hmap := studentsOf_map_id (titleUniverse (main :: details)) 1
    (mergedStudents (main :: details))
  have hmapk := studentsOf_map_key (titleUniverse (main :: details)) 1
    (mergedStudents (main :: details))
    (fun e he => (entryOk_mergedStudents (main :: details) e he).1)
  have hilt' : i < (mergedStudents (main :: details)).length := by
    simpa using hilt
  have hid : ((mergeParsed main details).students.map (fun s => s.id))[i]? = some (1 + 1 * i) := by
    rw [mergeParsed_students, hmap]
    exact List.getElem?_range' 1 1 hilt'
  have hkey : ((mergeParsed main details).students.map skey)[i]? = some k := by
    rw [mergeParsed_students, hmapk]
    exact hkopt
  rw [List.getElem?_map] at hid hkey
  cases hp : (mergeParsed main details).students[i]? with
  | none => rw [hp] at hid; cases hid
  | some p =>
    rw [hp] at hid hkey
    refine ⟨p, List.getElem?_mem hp, ?_, ?_⟩
    · have hpd : p.id = 1 + 1 * i := by simpa using hid
      omega
    · simpa using hkey

/-! ## Lemmas about the field splitter -/

theorem splitPipe_ne_nil (cs : List Char) : splitPipe cs ≠ [] := by
  induction cs with
  | nil => simp [splitPipe]
  | cons c rest ih =>
    unfold splitPipe
    by_cases h : c = '|'
    · simp [h]
    · rw [if_neg h]
      cases hr : splitPipe rest with
      | nil => simp
      | cons p ps => simp

theorem pipe_not_mem_splitPipe (cs : List Char) : ∀ p ∈ splitPipe cs, '|' ∉ p := by
  induction cs with
  | nil =>
    intro p hp
    rw [List.mem_singleton.mp hp]
    simp
  | cons c rest ih =>
    intro p hp
    unfold splitPipe at hp
    by_cases h : c = '|'
    · rw [if_pos h] at hp
      rcases List.mem_cons.mp hp with rfl | hmem
      · simp
      · exact ih p hmem
    · rw [if_neg h] at hp
      cases hr : splitPipe rest with
      | nil => exact absurd hr (splitPipe_ne_nil rest)
      | cons q ps =>
        rw [hr] at hp
        rcases List.mem_cons.mp hp with rfl | hmem
        · intro hc
          rcases List.mem_cons.mp hc with hc1 | hc2
          · exact h hc1.symm
          · exact ih q (hr ▸ List.mem_cons_self _ _) hc2
        · exact ih p (hr ▸ List.mem_cons_of_mem _ hmem)

theorem splitPipe_no_pipe {p : List Char} (h : '|' ∉ p) : splitPipe p = [p] := by
  induction p with
  | nil => rfl
  | cons c rest ih =>
    have hc : c ≠ '|' := fun hh => h (hh ▸ List.mem_cons_self _ _)
    have hrest : '|' ∉ rest := fun hh => h (List.mem_cons_of_mem _ hh)
    unfold splitPipe
    rw [if_neg hc, ih hrest]

theorem splitPipe_append_pipe {p : List Char} (rest : List Char) (h : '|' ∉ p) :
    splitPipe (p ++ '|' :: rest) = p :: splitPipe rest := by
  induction p with
  | nil =>
    show splitPipe ('|' :: rest) = [] :: splitPipe rest
    rw [splitPipe]
    simp
  | cons c q ih =>
    have hc : c ≠ '|' := fun hh => h (hh ▸ List.mem_cons_self _ _)
    have hq : '|' ∉ q := fun hh => h (List.mem_cons_of_mem _ hh)
    show splitPipe (c :: (q ++ '|' :: rest)) = (c :: q) :: splitPipe rest
    rw [splitPipe]
    simp only [ih hq]
    simp [hc]

theorem splitPipe_joinPipe {ps : List (List Char)} (hne : ps ≠ [])
    (h : ∀ p ∈ ps, '|' ∉ p) : splitPipe (joinPipe ps) = ps := by
  induction ps with
  | nil => exact absurd rfl hne
  | cons p ps ih =>
    cases ps with
    | nil =>
      show splitPipe (joinPipe [p]) = [p]
      exact splitPipe_no_pipe (h p (List.mem_cons_self _ _))
    | cons q ps' =>
      show splitPipe (p ++ '|' :: joinPipe (q :: ps')) = p :: (q :: ps')
      rw [splitPipe_append_pipe _ (h p (List.mem_cons_self _ _))]
      rw [ih (by simp) (fun x hx => h x (List.mem_cons_of_mem _ hx))]

theorem dropWhile_idem (q : Char → Bool) (l : List Char) :
    (l.dropWhile q).dropWhile q = l.dropWhile q := by
  induction l with
  | nil => rfl
  | cons a l ih =>
    rw [List.dropWhile_cons]
    by_cases h : q a = true
    · rw [if_pos h]
      exact ih
    · rw [if_neg h, List.dropWhile_cons, if_neg h]

theorem reverse_dropWhile_reverse_stable (q : Char → Bool) (y : List Char)
    (hyd : y.dropWhile q = y) :
    ((y.reverse.dropWhile q).reverse).dropWhile q = (y.reverse.dropWhile q).reverse := by
  have hsplit : y.reverse = y.reverse.takeWhile q ++ y.reverse.dropWhile q :=
    (List.takeWhile_append_dropWhile q y.reverse).symm
  have hyrev : y = (y.reverse.dropWhile q).reverse ++ (y.reverse.takeWhile q).reverse := by
    have hcong := congrArg List.reverse hsplit
    rwa [List.reverse_reverse, List.reverse_append] at hcong
  obtain ⟨w, hw⟩ : ∃ w, (y.reverse.dropWhile q).reverse = w := ⟨_, rfl⟩
  obtain ⟨z, hz⟩ : ∃ z, (y.reverse.takeWhile q).reverse = z := ⟨_, rfl⟩
  rw [hw, hz] at hyrev
  rw [hw]
  cases w with
  | nil => rfl
  | cons a tail =>
    have hya : y = a :: (tail ++ z) := by
      rw [hyrev]
      rfl
    have hhead : q a = false := by
      cases hqa : q a with
      | false => rfl
      | true =>
        exfalso
        have h1 : y.dropWhile q = (tail ++ z).dropWhile q := by
          conv_lhs => rw [hya]
          rw [List.dropWhile_cons]
          simp [hqa]
        have h2 : y = (tail ++ z).dropWhile q := hyd.symm.trans h1
        have hlen := congrArg List.length h2
        have hle : ((tail ++ z).dropWhile q).length ≤ (tail ++ z).length :=
          (List.dropWhile_sublist q).length_le
        rw [hya] at hlen
        simp only [List.length_cons, List.length_append] at hlen hle
        omega
    rw [List.dropWhile_cons, hhead]
    simp

theorem pyStrip_idem (x : List Char) : pyStrip (pyStrip x) = pyStrip x := by
  show pyStrip (((x.dropWhile Char.isWhitespace).reverse.dropWhile Char.isWhitespace).reverse)
      = pyStrip x
  unfold pyStrip
  rw [reverse_dropWhile_reverse_stable Char.isWhitespace (x.dropWhile Char.isWhitespace)
    (dropWhile_idem Char.isWhitespace x)]
  rw [List.reverse_reverse, dropWhile_idem]

theorem pyStrip_subset (cs : List Char) : ∀ c ∈ pyStrip cs, c ∈ cs := by
  intro c hc
  unfold pyStrip at hc
  rw [List.mem_reverse] at hc
  have h1 := (List.dropWhile_sublist Char.isWhitespace).subset hc
  rw [List.mem_reverse] at h1
  exact (List.dropWhile_sublist Char.isWhitespace).subset h1

theorem mem_fsplit {cs : List Char} {p : List Char} (hp : p ∈ fsplit cs) :
    p ≠ [] ∧ pyStrip p = p ∧ '|' ∉ p := by
  unfold fsplit at hp
  rcases List.mem_filter.mp hp with ⟨hmem, hne⟩
  rcases List.mem_map.mp hmem with ⟨p0, hp0, rfl⟩
  refine ⟨by simpa using hne, pyStrip_idem p0, ?_⟩
  intro hmem2
  exact pipe_not_mem_splitPipe cs p0 hp0 (pyStrip_subset p0 '|' hmem2)

theorem fsplit_join (ps : List (List Char))
    (hprops : ∀ x ∈ ps, x ≠ [] ∧ pyStrip x = x ∧ '|' ∉ x) :
    fsplit (joinPipe ps) = ps := by
  cases ps with
  | nil => rfl
  | cons p ps' =>
    unfold fsplit
    rw [splitPipe_joinPipe (by simp) (fun x hx => (hprops x hx).2.2)]
    have hmap : (p :: ps').map pyStrip = p :: ps' := by
      have := List.map_congr_left (fun x hx => (hprops x hx).2.1)
      rw [this]
      simp
    rw [hmap]
    apply List.filter_eq_self.mpr
    intro x hx
    simpa using (hprops x hx).1

theorem fsplit_idem (cs : List Char) : fsplit (joinPipe (fsplit cs)) = fsplit cs :=
  fsplit_join (fsplit cs) (fun x hx => mem_fsplit hx)

/-! ## Lemmas about the score parser -/

theorem takeDigitPart_no_digit {cs : List Char} (h : ∀ c ∈ cs, c.isDigit = false) :
    takeDigitPart cs = ([], cs) := by
  cases cs with
  | nil => rfl
  | cons a l =>
    rw [takeDigitPart, h a (List.mem_cons_self _ _)]
    rfl

theorem tdpTail_all_digits {cs : List Char} (h : ∀ c ∈ cs, c.isDigit = true) :
    tdpTail cs = (cs, []) := by
  induction cs with
  | nil => rfl
  | cons b m ih =>
    have hb := h b (List.mem_cons_self _ _)
    rw [tdpTail, hb, if_pos rfl, ih (fun c hc => h c (List.mem_cons_of_mem _ hc))]

theorem takeDigitPart_all_digits {cs : List Char} (h : ∀ c ∈ cs, c.isDigit = true) :
    takeDigitPart cs = (cs, []) := by
  cases cs with
  | nil => rfl
  | cons a l =>
    rw [takeDigitPart, h a (List.mem_cons_self _ _), if_pos rfl,
      tdpTail_all_digits (fun c hc => h c (List.mem_cons_of_mem _ hc))]

theorem pyFloatAfterInt_nil_no_digit {rest : List Char}
    (h : ∀ c ∈ rest, c.isDigit = false) :
    pyFloatAfterInt [] rest = none := by
  unfold pyFloatAfterInt
  split
  · simp
  · rename_i t2
    rw [takeDigitPart_no_digit (fun c hc => h c (List.mem_cons_of_mem _ hc))]
    simp
  · simp
  · simp
  · rfl

theorem pyFloatUnsigned_no_digit {cs : List Char} (h : ∀ c ∈ cs, c.isDigit = false) :
    pyFloatUnsigned cs = none := by
  unfold pyFloatUnsigned
  rw [takeDigitPart_no_digit h]
  exact pyFloatAfterInt_nil_no_digit h

theorem pyFloatSpecial?_cases (cs : List Char) :
    pyFloatSpecial? cs = none ∨ pyFloatSpecial? cs = some PyFloat.inf ∨
      pyFloatSpecial? cs = some PyFloat.nan := by
  unfold pyFloatSpecial?
  split
  · exact Or.inr (Or.inl rfl)
  · split
    · exact Or.inr (Or.inr rfl)
    · exact Or.inl rfl

theorem pyFloatCore_no_digit {cs : List Char} (h : ∀ c ∈ cs, c.isDigit = false) :
    pyFloatCore cs = none ∨ pyFloatCore cs = some PyFloat.inf ∨
      pyFloatCore cs = some PyFloat.ninf ∨ pyFloatCore cs = some PyFloat.nan := by
  unfold pyFloatCore
  split
  · rename_i rest
    rcases pyFloatSpecial?_cases rest with hs | hs | hs <;> rw [hs]
    · rw [pyFloatUnsigned_no_digit (fun c hc => h c (List.mem_cons_of_mem _ hc))]
      exact Or.inl rfl
    · exact Or.inr (Or.inl rfl)
    · exact Or.inr (Or.inr (Or.inr rfl))
  · rename_i rest
    rcases pyFloatSpecial?_cases rest with hs | hs | hs <;> rw [hs]
    · rw [pyFloatUnsigned_no_digit (fun c hc => h c (List.mem_cons_of_mem _ hc))]
      exact Or.inl rfl
    · exact Or.inr (Or.inr (Or.inl rfl))
    · exact Or.inr (Or.inr (Or.inr rfl))
  · rcases pyFloatSpecial?_cases cs with hs | hs | hs <;> rw [hs]
    · rw [pyFloatUnsigned_no_digit h]
      exact Or.inl rfl
    · exact Or.inr (Or.inl rfl)
    · exact Or.inr (Or.inr (Or.inr rfl))

theorem parse_score_no_digit (s : String) (h : ∀ c ∈ s.data, c.isDigit = false) :
    parse_score (some s) = none ∨ parse_score (some s) = some PyFloat.inf ∨
      parse_score (some s) = some PyFloat.ninf ∨ parse_score (some s) = some PyFloat.nan := by
  have heq : parse_score (some s) =
      pyFloatCore (pyStrip (s.data.filter (fun c => decide (c ≠ '%')))) := rfl
  rw [heq]
  exact pyFloatCore_no_digit
    (fun c hc => h c (List.mem_of_mem_filter (pyStrip_subset _ c hc)))

theorem parse_score_percent_append (cs : List Char) :
    parse_score (some ⟨cs ++ ['%']⟩) = parse_score (some ⟨cs⟩) := by
  show pyFloatCore (pyStrip ((cs ++ ['%']).filter (fun c => decide (c ≠ '%')))) =
    pyFloatCore (pyStrip (cs.filter (fun c => decide (c ≠ '%'))))
  rw [List.filter_append]
  simp

theorem asciiLower_digit {a : Char} (ha : a.isDigit = true) : asciiLower a = a := by
  unfold asciiLower
  rw [if_neg]
  rintro ⟨h1, h2⟩
  simp only [Char.isDigit] at ha
  rw [Bool.and_eq_true, decide_eq_true_eq, decide_eq_true_eq] at ha
  have hu : ('A' : Char).val ≤ a.val := h1
  have hd : a.val ≤ 57 := ha.2
  rw [UInt32.le_def, BitVec.le_def] at hu hd
  have h65 : ('A' : Char).val.toBitVec.toNat = 65 := rfl
  have h57 : (57 : UInt32).toBitVec.toNat = 57 := rfl
  rw [h65] at hu
  rw [h57] at hd
  omega

theorem pyFloatSpecial?_all_digits {cs : List Char} (h : ∀ c ∈ cs, c.isDigit = true) :
    pyFloatSpecial? cs = none := by
  have hmap : cs.map asciiLower = cs := by
    have hid : cs.map asciiLower = cs.map id :=
      List.map_congr_left (fun c hc => asciiLower_digit (h c hc))
    rw [hid, List.map_id]
  have hne1 : ¬(cs.map asciiLower = ['i', 'n', 'f'] ∨
      cs.map asciiLower = ['i', 'n', 'f', 'i', 'n', 'i', 't', 'y']) := by
    rw [hmap]
    rintro (hq | hq) <;> subst hq <;>
      exact absurd (h 'i' (List.mem_cons_self _ _)) (by decide)
  have hne2 : ¬cs.map asciiLower = ['n', 'a', 'n'] := by
    rw [hmap]
    intro hq
    subst hq
    exact absurd (h 'n' (List.mem_cons_self _ _)) (by decide)
  unfold pyFloatSpecial?
  rw [if_neg hne1, if_neg hne2]

theorem pyFloatUnsigned_all_digits {cs : List Char} (hne : cs ≠ [])
    (h : ∀ c ∈ cs, c.isDigit = true) :
    pyFloatUnsigned cs = some (digitsVal cs : Rat) := by
  unfold pyFloatUnsigned
  rw [takeDigitPart_all_digits h]
  show pyFloatAfterInt cs [] = _
  rw [pyFloatAfterInt, if_neg hne]

theorem pyStrip_all_digits {cs : List Char} (h : ∀ c ∈ cs, c.isDigit = true) :
    pyStrip cs = cs := by
  have hnw : ∀ c ∈ cs, Char.isWhitespace c = false := by
    intro c hc
    have hd := h c hc
    by_contra hws
    rw [Bool.not_eq_false] at hws
    have hcases : c = ' ' ∨ c = '\t' ∨ c = '\r' ∨ c = '\n' := by
      revert hws
      unfold Char.isWhitespace
      intro hws
      simp only [Bool.or_eq_true, decide_eq_true_eq] at hws
      tauto
    rcases hcases with rfl | rfl | rfl | rfl <;> revert hd <;> decide
  unfold pyStrip
  have h1 : cs.dropWhile Char.isWhitespace = cs := by
    cases cs with
    | nil => rfl
    | cons a l =>
      rw [List.dropWhile_cons, hnw a (List.mem_cons_self _ _)]
      simp
  rw [h1]
  have h2 : cs.reverse.dropWhile Char.isWhitespace = cs.reverse := by
    cases hr : cs.reverse with
    | nil => rfl
    | cons a l =>
      have ha : a ∈ cs := by
        rw [← List.mem_reverse, hr]
        exact List.mem_cons_self _ _
      rw [List.dropWhile_cons, hnw a ha]
      simp
  rw [h2, List.reverse_reverse]

theorem parse_score_all_digits {cs : List Char} (hne : cs ≠ [])
    (h : ∀ c ∈ cs, c.isDigit = true) :
    parse_score (some ⟨cs⟩) = some (PyFloat.val (digitsVal cs : Rat)) := by
  show pyFloatCore (pyStrip (cs.filter (fun c => decide (c ≠ '%')))) = _
  have hfil : cs.filter (fun c => decide (c ≠ '%')) = cs := by
    apply List.filter_eq_self.mpr
    intro c hc
    have hd := h c hc
    simp only [decide_eq_true_eq]
    intro hh
    subst hh
    revert hd
    decide
  rw [hfil, pyStrip_all_digits h]
  unfold pyFloatCore
  cases cs with
  | nil => exact absurd rfl hne
  | cons a l =>
    have ha := h a (List.mem_cons_self _ _)
    have hna : a ≠ '+' := by
      intro hh
      subst hh
      revert ha
      decide
    have hnb : a ≠ '-' := by
      intro hh
      subst hh
      revert ha
      decide
    split
    · rename_i heq
      injection heq with hq1 hq2
      exact absurd hq1 hna
    · rename_i heq
      injection heq with hq1 hq2
      exact absurd hq1 hnb
    · rw [pyFloatSpecial?_all_digits h, pyFloatUnsigned_all_digits (by simp) h]
      rfl

/-! ## Lemmas about the table extractor -/

theorem dictInsert_fresh (e : RawRecord) (k : String) (v : RawVal)
    (h : ∀ p ∈ e, p.1 ≠ k) : dictInsert e k v = e ++ [(k, v)] := by
  unfold dictInsert
  rw [if_neg]
  intro hc
  rcases List.any_eq_true.mp hc with ⟨p, hp, hpk⟩
  exact h p hp (by simpa using hpk)

theorem foldl_dictInsert_fresh (pairs : List (String × RawVal)) (e : RawRecord)
    (hn : (pairs.map (fun p => p.1)).Nodup)
    (hdisj : ∀ p ∈ pairs, ∀ q ∈ e, q.1 ≠ p.1) :
    pairs.foldl (fun e p => dictInsert e p.1 p.2) e = e ++ pairs := by
  induction pairs generalizing e with
  | nil => simp
  | cons p ps ih =>
    rw [List.map_cons, List.nodup_cons] at hn
    rw [List.foldl_cons,
      dictInsert_fresh e p.1 p.2 (fun q hq => hdisj p (List.mem_cons_self _ _) q hq)]
    have hdisj' : ∀ r ∈ ps, ∀ q ∈ e ++ [(p.1, p.2)], q.1 ≠ r.1 := by
      intro r hr q hq
      rcases List.mem_append.mp hq with h1 | h2
      · exact hdisj r (List.mem_cons_of_mem _ hr) q h1
      · have hq2 := List.mem_singleton.mp h2
        subst hq2
        intro hc
        exact hn.1 (hc ▸ List.mem_map_of_mem (fun p => p.1) hr)
    rw [ih (e ++ [(p.1, p.2)]) hn.2 hdisj']
    simp

theorem rowEntry_eq_zip (hs : List String) (cols : List String)
    (hn : (colKeys hs cols).Nodup) :
    rowEntry hs cols = (colKeys hs cols).zip (cols.map RawVal.s) := by
  unfold rowEntry
  have h1 : cols.enum.foldl (fun e p => dictInsert e (colName hs p.1) (RawVal.s p.2)) [] =
      (cols.enum.map (fun p => (colName hs p.1, RawVal.s p.2))).foldl
        (fun e q => dictInsert e q.1 q.2) [] := by
    rw [List.foldl_map]
  have hkeys : ((cols.enum.map (fun p => (colName hs p.1, RawVal.s p.2))).map
      (fun q => q.1)).Nodup := by
    rw [List.map_map]
    exact hn
  have hdisj : ∀ q ∈ cols.enum.map (fun p => (colName hs p.1, RawVal.s p.2)),
      ∀ r ∈ ([] : RawRecord), r.1 ≠ q.1 := by
    intro q _ r hr
    cases hr
  rw [h1, foldl_dictInsert_fresh _ [] hkeys hdisj, List.nil_append]
  have h2 : cols.map RawVal.s = cols.enum.map (fun p => RawVal.s p.2) := by
    conv_lhs => rw [← List.enum_map_snd cols]
    rw [List.map_map]
    rfl
  rw [h2]
  unfold colKeys
  rw [List.zip_map']

theorem extract_table_eq (t : HtmlTable) :
    extract_table t =
      (((t.rows.drop 1).map (fun r => r.map cellText)).filter (fun cols => cols ≠ [])).map
        (rowEntry (tableHeaders t)) := by
  unfold extract_table
  suffices h : ∀ (rows : List (List String)) (acc : List RawRecord),
      rows.foldl (fun acc r =>
        let cols := r.map cellText
        if cols = [] then acc else acc ++ [rowEntry (tableHeaders t) cols]) acc
      = acc ++ ((rows.map (fun r => r.map cellText)).filter
          (fun cols => cols ≠ [])).map (rowEntry (tableHeaders t)) by
    have hinst := h (t.rows.drop 1) []
    simpa using hinst
  intro rows
  induction rows with
  | nil =>
    intro acc
    simp
  | cons r rows ih =>
    intro acc
    rw [List.foldl_cons, List.map_cons, List.filter_cons]
    dsimp only
    by_cases hc : r.map cellText = []
    · rw [if_pos hc]
      have hpred : (decide (r.map cellText ≠ []) : Bool) = false := by
        simpa using hc
      rw [hpred]
      simp only [Bool.false_eq_true, if_false]
      exact ih acc
    · rw [if_neg hc]
      have hpred : (decide (r.map cellText ≠ []) : Bool) = true := by
        simpa using hc
      rw [hpred]
      simp only [if_true]
      rw [ih (acc ++ [rowEntry (tableHeaders t) (r.map cellText)])]
      simp

theorem countP_congr_mem {α : Type} {p q : α → Bool} (l : List α)
    (h : ∀ a ∈ l, p a = q a) : l.countP p = l.countP q := by
  induction l with
  | nil => rfl
  | cons a l ih =>
    rw [List.countP_cons, List.countP_cons, h a (List.mem_cons_self _ _),
      ih (fun x hx => h x (List.mem_cons_of_mem _ hx))]

theorem extract_table_length (t : HtmlTable) :
    (extract_table t).length = ((t.rows.drop 1).filter (fun r => r ≠ [])).length := by
  rw [extract_table_eq, List.length_map, ← List.countP_eq_length_filter,
    ← List.countP_eq_length_filter, List.countP_map]
  apply countP_congr_mem
  intro r _
  simp

/-! # The claims -/

/-- C1, counterexample: the claim states that `parse_score` extracts the
first numeric token while ignoring brackets, so that `"[9]"` yields `9.0`.
The code only removes percent signs and whitespace before calling `float`,
so `float("[9]")` raises and the result is `None`, not `9.0`. -/
theorem C1_parse_score_counterexample :
    parse_score (some "[9]") = none ∧ parse_score (some "[9]") ≠ some (PyFloat.val 9) := by
  constructor
  · decide
  · decide

/-- C1 (amended): `parse_score` returns null for null input; otherwise it
removes every percent sign, strips surrounding whitespace, and applies
Python `float()` to the whole remaining string: an optional sign followed
by either a finite decimal literal (digits with optional single underscores
between digits, optional fraction, optional exponent) or one of the special
spellings `inf`/`infinity`/`nan` (case-insensitive), returning null
whenever the cleaned string is none of these.  It does NOT extract the
first numeric token, and brackets and other decoration are NOT ignored: a
string containing no digit yields null unless it is a special spelling (in
which case the result is the corresponding non-finite value); appending a
percent sign never changes the result; an all-digit string of at most 15
digits (within the range where IEEE-754 doubles represent integers
exactly, so the code's float and this exact-rational model agree) yields
its integer value; `"88%"` yields `88.0`, `"inf"` yields `inf`,
`"-Infinity"` yields `-inf`, `"nan"` yields `nan`, `"  "`, `"N/A"` and
`"[9]"` yield null, `"1_0"` yields `10.0`, and `"7.5"` yields `7.5`. -/
theorem C1_parse_score_amended :
    parse_score none = none
    ∧ (∀ s : String, (∀ c ∈ s.data, c.isDigit = false) →
        parse_score (some s) = none ∨ parse_score (some s) = some PyFloat.inf ∨
        parse_score (some s) = some PyFloat.ninf ∨ parse_score (some s) = some PyFloat.nan)
    ∧ (∀ cs : List Char, parse_score (some ⟨cs ++ ['%']⟩) = parse_score (some ⟨cs⟩))
    ∧ (∀ cs : List Char, cs ≠ [] → cs.length ≤ 15 → (∀ c ∈ cs, c.isDigit = true) →
        parse_score (some ⟨cs⟩) = some (PyFloat.val (digitsVal cs : Rat)))
    ∧ parse_score (some "88%") = some (PyFloat.val 88)
    ∧ parse_score (some "inf") = some PyFloat.inf
    ∧ parse_score (some "-Infinity") = some PyFloat.ninf
    ∧ parse_score (some "nan") = some PyFloat.nan
    ∧ parse_score (some "  ") = none
    ∧ parse_score (some "N/A") = none
    ∧ parse_score (some "[9]") = none
    ∧ parse_score (some "1_0") = some (PyFloat.val 10)
    ∧ parse_score (some "7.5") = some (PyFloat.val ((15 : Rat) / 2)) := by
  refine ⟨rfl, parse_score_no_digit, parse_score_percent_append,
    fun cs h1 _ h2 => parse_score_all_digits h1 h2, by decide, by decide, by decide, by decide,
    by decide, by decide, by decide, by decide, ?_⟩
  have hval : parse_score (some "7.5") =
      some (PyFloat.val ((digitsVal ['7'] : Rat) +
        (digitsVal ['5'] : Rat) / (10 : Rat) ^ (1 : Nat))) := rfl
  have h7 : digitsVal ['7'] = 7 := rfl
  have h5 : digitsVal ['5'] = 5 := rfl
  rw [hval, h7, h5]
  have hq : ((7 : Nat) : Rat) + ((5 : Nat) : Rat) / (10 : Rat) ^ (1 : Nat) = (15 : Rat) / 2 := by
    norm_num
  rw [hq]

/-- Witness for C1 (amended): the quantified clauses applied at concrete
inputs. -/
theorem C1_parse_score_amended_witness :
    (parse_score (some "abc") = none ∨ parse_score (some "abc") = some PyFloat.inf ∨
      parse_score (some "abc") = some PyFloat.ninf ∨ parse_score (some "abc") = some PyFloat.nan)
    ∧ parse_score (some ⟨['9', '5'] ++ ['%']⟩) = parse_score (some ⟨['9', '5']⟩)
    ∧ parse_score (some ⟨['9', '5']⟩) = some (PyFloat.val (digitsVal ['9', '5'] : Rat)) := by
  refine ⟨?_, ?_, ?_⟩
  · exact C1_parse_score_amended.2.1 "abc" (by decide)
  · exact C1_parse_score_amended.2.2.1 ['9', '5']
  · exact C1_parse_score_amended.2.2.2.1 ['9', '5'] (by decide) (by decide) (by decide)

/-- C2: evaluation of the normalization pass at the failing input.  A record
with classes `["Math", "Science"]` and the single grade `"95"` produces a
grade record for BOTH classes (each with score 95.0) — the `elif grade_vals:`
branch at books_scrapper.py line 190 assigns `grade_vals[0]` to every class
index beyond the grade list, contradicting the code's own comment
("if only one grade provided, assign it to the first class") and the claim.
The enrollment part of the claim does hold: the student is enrolled in both
classes. -/
theorem C2_single_grade_applied_to_all_classes :
    (normalizeRecords [[("name", RawVal.s "X"), ("classes", RawVal.l ["Math", "Science"]),
        ("grades", RawVal.l ["95"])]]).grades =
      [⟨1, 1, some (PyFloat.val 95), none⟩, ⟨1, 2, some (PyFloat.val 95), none⟩]
    ∧ (normalizeRecords [[("name", RawVal.s "X"), ("classes", RawVal.l ["Math", "Science"]),
        ("grades", RawVal.l ["95"])]]).students =
      [⟨1, "X", some "", none, [1, 2]⟩]
    ∧ (normalizeRecords [[("name", RawVal.s "X"), ("classes", RawVal.l ["Math", "Science"]),
        ("grades", RawVal.l ["95"])]]).classes =
      [⟨1, "Math"⟩, ⟨2, "Science"⟩] := by
  refine ⟨?_, ?_, ?_⟩ <;> decide

/-- C3: the merged class list assigns global ids 1..M to the distinct class
titles in order of first appearance, iterating the main document's classes
first and then each detail document's, with exact string equality of titles
as the only identity; and for any documents A with class titles `["Math"]`
and B with class titles `["Science", "Math"]`, merging A then B yields
exactly the classes Math=1, Science=2. -/
theorem C3_classes_first_appearance_order (main : Parsed) (details : List Parsed)
    (A B : Parsed) (hA : A.classes.map (fun c => c.title) = ["Math"])
    (hB : B.classes.map (fun c => c.title) = ["Science", "Math"]) :
    ((mergeParsed main details).classes.map (fun c => c.id) =
        List.range' 1 (titleUniverse (main :: details)).length)
    ∧ ((mergeParsed main details).classes.map (fun c => c.title) =
        firstDedup (allTitles (main :: details)))
    ∧ ((mergeParsed main details).classes.map (fun c => c.title)).Nodup
    ∧ (∀ t, (∃ c ∈ (mergeParsed main details).classes, c.title = t) ↔
        ∃ src ∈ main :: details, ∃ c ∈ src.classes, c.title = t)
    ∧ (mergeParsed A [B]).classes = [⟨1, "Math"⟩, ⟨2, "Science"⟩] := by
  refine ⟨?_, ?_, ?_, ?_, ?_⟩
  · rw [mergeParsed_classes, classesOf_map_id]
  · rw [mergeParsed_classes, classesOf_map_title, titleUniverse_eq_firstDedup]
  · rw [mergeParsed_classes, classesOf_map_title]
    exact nodup_titleUniverse _
  · intro t
    have hmem : (∃ c ∈ (mergeParsed main details).classes, c.title = t) ↔
        t ∈ (mergeParsed main details).classes.map (fun c => c.title) := by
      rw [List.mem_map]
    rw [hmem, mergeParsed_classes, classesOf_map_title]
    exact mem_titleUniverse _ t
  · have hu : titleUniverse (A :: [B]) = ["Math", "Science"] := by
      rw [titleUniverse_eq_firstDedup]
      unfold allTitles
      rw [List.flatMap_cons, List.flatMap_cons, List.flatMap_nil, hA, hB]
      decide
    rw [mergeParsed_classes, hu]
    rfl

/-- Witness for C3: the concrete two-document merge. -/
theorem C3_classes_witness :
    (mergeParsed (⟨[], [⟨1, "Math"⟩], []⟩ : Parsed)
        [(⟨[], [⟨1, "Science"⟩, ⟨2, "Math"⟩], []⟩ : Parsed)]).classes =
      [⟨1, "Math"⟩, ⟨2, "Science"⟩] :=
  (C3_classes_first_appearance_order ⟨[], [⟨1, "Math"⟩], []⟩ [⟨[], [⟨1, "Science"⟩, ⟨2, "Math"⟩], []⟩]
    ⟨[], [⟨1, "Math"⟩], []⟩ ⟨[], [⟨1, "Science"⟩, ⟨2, "Math"⟩], []⟩
    (by decide) (by decide)).2.2.2.2

theorem studentsOf_length (u : List String) (i : Nat) (m : List (Key × MS)) :
    (studentsOf u i m).length = m.length := by
  induction m generalizing i with
  | nil => rfl
  | cons e m ih =>
    obtain ⟨k, d⟩ := e
    simp only [studentsOf, List.length_cons]
    rw [ih]

theorem find?_eq_some_of_nodup_map {α β : Type} [DecidableEq β] (f : α → β)
    (l : List α) (e : α) (hn : (l.map f).Nodup) (he : e ∈ l) :
    l.find? (fun x => decide (f x = f e)) = some e := by
  induction l with
  | nil => cases he
  | cons a l ih =>
    rw [List.map_cons, List.nodup_cons] at hn
    rcases List.mem_cons.mp he with rfl | hmem
    · exact List.find?_cons_of_pos _ (by simp)
    · have hne : f a ≠ f e := by
        intro hh
        exact hn.1 (hh ▸ List.mem_map_of_mem f hmem)
      rw [List.find?_cons_of_neg _ (by simpa using hne)]
      exact ih hn.2 hmem

/-- C4, counterexample: the claim says the merged student's enrolled classes
are the union of the class titles mapped through each source's local table,
for every merge input.  When a class title is the empty string the mapping
succeeds but the code's truthiness test (`if title:`) silently drops the
enrollment: in the merge below Alice is enrolled in the (existing, mapped)
class with title `""`, yet her merged `enrolled_classes` is empty rather
than `[1]`. -/
theorem C4_dedup_counterexample :
    (mergeParsed (⟨[⟨1, "Alice", some "alice@example.com", none, [1]⟩], [⟨1, ""⟩], []⟩ : Parsed)
        [(⟨[⟨1, "Alice", some "alice@example.com", none, []⟩], [], []⟩ : Parsed)]).students =
      [⟨1, "Alice", some "alice@example.com", none, []⟩]
    ∧ (mergeParsed (⟨[⟨1, "Alice", some "alice@example.com", none, [1]⟩], [⟨1, ""⟩], []⟩ : Parsed)
        [(⟨[⟨1, "Alice", some "alice@example.com", none, []⟩], [], []⟩ : Parsed)]).classes =
      [⟨1, ""⟩]
    ∧ class_id_to_title
        (⟨[⟨1, "Alice", some "alice@example.com", none, [1]⟩], [⟨1, ""⟩], []⟩ : Parsed) 1 =
      some "" := by
  refine ⟨?_, ?_, ?_⟩ <;> decide

/-- C4 (amended): for every merge input in which at least two source
documents contain a student with dedup key `k` (name, email-or-empty),
`_merge_parsed_results` produces exactly one merged student record with that
key; the classes enrolled on that student are exactly (as titles) the union,
across all sources and all students carrying the key, of the NON-EMPTY class
titles obtained by mapping each local class id through that source's own
class table (empty-string titles, though mapped, are dropped by the code's
truthiness test); and merged students receive dense global ids 1..N in order
of first appearance of their key. -/
theorem C4_student_dedup (main : Parsed) (details : List Parsed) (k : Key)
    (hocc : 2 ≤ (main :: details).countP
      (fun src => src.students.any (fun s => decide (skey s = k)))) :
    ((mergeParsed main details).students.filter (fun s => decide (skey s = k))).length = 1
    ∧ (∀ p ∈ (mergeParsed main details).students, skey p = k →
        ∀ t : String,
          (∃ c ∈ (mergeParsed main details).classes, c.id ∈ p.enrolled_classes ∧ c.title = t) ↔
          (t ≠ "" ∧ ∃ src ∈ main :: details, ∃ st ∈ src.students, skey st = k ∧
            ∃ cid ∈ st.enrolled_classes, class_id_to_title src cid = some t))
    ∧ (mergeParsed main details).students.map (fun s => s.id) =
        List.range' 1 (mergeParsed main details).students.length
    ∧ (mergeParsed main details).students.map skey =
        firstDedup ((allStudents (main :: details)).map skey) := by
  have hex : ∃ s ∈ allStudents (main :: details), skey s = k := by
    have hpos : 0 < (main :: details).countP
        (fun src => src.students.any (fun s => decide (skey s = k))) := by omega
    rcases List.countP_pos.mp hpos with ⟨src, hsrc, hany⟩
    rcases List.any_eq_true.mp hany with ⟨st, hst, hk⟩
    refine ⟨st, ?_, by simpa using hk⟩
    unfold allStudents
    exact List.mem_flatMap.mpr ⟨src, hsrc, hst⟩
  refine ⟨one_student_per_key main details k hex, ?_, ?_, ?_⟩
  · intro p hp hk t
    rcases student_key_data main details p hp with ⟨d, hd, _, _, _, henr, hnodup, hsub⟩
    rw [hk] at hd
    have hdt : ∀ x, x ∈ d.titles ↔ x ∈ titlesOfKey k (studentPairs (main :: details)) := by
      have hchar := mergedStudents_lookup (main :: details) k
      rw [hd] at hchar
      cases hfp : (studentPairs (main :: details)).find? (fun q => decide (skey q.2 = k)) with
      | none =>
        rw [hfp] at hchar
        cases hchar
      | some p0 =>
        rw [hfp] at hchar
        injection hchar with hchar
        intro x
        rw [hchar]
        show x ∈ (titlesOfKey k (studentPairs (main :: details))).foldl pyAdd [] ↔ _
        rw [mem_foldl_pyAdd]
        simp
    constructor
    · rintro ⟨c, hc, hcid, rfl⟩
      rw [henr] at hcid
      rcases List.mem_filterMap.mp hcid with ⟨t', ht', hmapt'⟩
      have hfind := classesOf_find (titleUniverse (main :: details)) t' c.id 1 hmapt'
      have harith : c.id - 1 + 1 = c.id := by
        have := classMapOf_pos hmapt'
        omega
      rw [harith] at hfind
      have hnodids : (((mergeParsed main details).classes).map (fun x => x.id)).Nodup := by
        rw [mergeParsed_classes, classesOf_map_id]
        exact List.nodup_range' _ _
      have hcfind : ((mergeParsed main details).classes).find?
          (fun x => decide (x.id = c.id)) = some c :=
        find?_eq_some_of_nodup_map (fun x => x.id) _ c hnodids hc
      rw [mergeParsed_classes] at hcfind
      have hceq : c = ⟨c.id, t'⟩ := by
        have := hcfind.symm.trans hfind
        injection this
      have hct : c.title = t' := by
        rw [hceq]
      rw [hct]
      have ht'mem : t' ∈ d.titles := (mem_sortTitles _ _).mp ht'
      have := (hdt t').mp ht'mem
      rw [mem_titlesOfKey] at this
      rcases this with ⟨src, hsrc, st, hst, hkst, htr⟩
      rw [mem_resolveTitles] at htr
      rcases htr with ⟨hne, cid, hcidm, hctt⟩
      exact ⟨hne, src, hsrc, st, hst, hkst, cid, hcidm, hctt⟩
    · rintro ⟨hne, src, hsrc, st, hst, hkst, cid, hcidm, hctt⟩
      have htd : t ∈ d.titles := by
        rw [hdt t, mem_titlesOfKey]
        refine ⟨src, hsrc, st, hst, hkst, ?_⟩
        rw [mem_resolveTitles]
        exact ⟨hne, cid, hcidm, hctt⟩
      have htu : t ∈ titleUniverse (main :: details) := hsub t htd
      have hsome : (classMapOf (titleUniverse (main :: details)) t).isSome :=
        (classMapOf_isSome_iff _ t).mpr htu
      rcases Option.isSome_iff_exists.mp hsome with ⟨n, hn⟩
      have hfind := classesOf_find (titleUniverse (main :: details)) t n 1 hn
      have harith : n - 1 + 1 = n := by
        have := classMapOf_pos hn
        omega
      rw [harith] at hfind
      refine ⟨⟨n, t⟩, ?_, ?_, rfl⟩
      · rw [mergeParsed_classes]
        exact List.mem_of_find?_eq_some hfind
      · rw [henr]
        exact List.mem_filterMap.mpr ⟨t, (mem_sortTitles _ _).mpr htd, hn⟩
  · rw [mergeParsed_students, studentsOf_map_id, studentsOf_length]
  · rw [mergeParsed_students,
      studentsOf_map_key _ _ _ (fun e he => (entryOk_mergedStudents (main :: details) e he).1),
      keys_mergedStudents]

/-- Witness for C4 (amended): two one-student documents sharing the key
("Alice", "alice@example.com") merge into exactly one student, with dense
ids and first-appearance key order. -/
theorem C4_student_dedup_witness :
    ((mergeParsed (⟨[⟨1, "Alice", some "alice@example.com", none, [1]⟩], [⟨1, "Math"⟩], []⟩ : Parsed)
        [(⟨[⟨1, "Alice", some "alice@example.com", none, [1]⟩], [⟨1, "Hist"⟩], []⟩ : Parsed)]).students.filter
      (fun s => decide (skey s = ("Alice", "alice@example.com")))).length = 1
    ∧ (mergeParsed (⟨[⟨1, "Alice", some "alice@example.com", none, [1]⟩], [⟨1, "Math"⟩], []⟩ : Parsed)
        [(⟨[⟨1, "Alice", some "alice@example.com", none, [1]⟩], [⟨1, "Hist"⟩], []⟩ : Parsed)]).students.map
      (fun s => s.id) = List.range' 1
        (mergeParsed (⟨[⟨1, "Alice", some "alice@example.com", none, [1]⟩], [⟨1, "Math"⟩], []⟩ : Parsed)
          [(⟨[⟨1, "Alice", some "alice@example.com", none, [1]⟩], [⟨1, "Hist"⟩], []⟩ : Parsed)]).students.length := by
  have h := C4_student_dedup
    (⟨[⟨1, "Alice", some "alice@example.com", none, [1]⟩], [⟨1, "Math"⟩], []⟩ : Parsed)
    [(⟨[⟨1, "Alice", some "alice@example.com", none, [1]⟩], [⟨1, "Hist"⟩], []⟩ : Parsed)]
    ("Alice", "alice@example.com") (by decide)
  exact ⟨h.1, h.2.2.1⟩

/-- C5, counterexample: the claim says every merged student's
`enrolled_classes` is sorted in ascending numeric order of the global class
ids.  The code sorts the TITLE set alphabetically and then maps titles to
ids, so when encounter order disagrees with alphabetical order the id list
is not ascending: with classes "B" (id 1) and "A" (id 2) and a student
enrolled in both, the output is `[2, 1]`. -/
theorem C5_sorted_ids_counterexample :
    (mergeParsed (⟨[⟨1, "S", none, none, [1, 2]⟩], [⟨1, "B"⟩, ⟨2, "A"⟩], []⟩ : Parsed) []).students.map
      (fun s => s.enrolled_classes) = [[2, 1]]
    ∧ ¬ List.Sorted (fun a b => a ≤ b) ([2, 1] : List Nat) := by
  constructor
  · decide
  · decide

/-- C5 (amended): every merged student's `enrolled_classes` lists the global
ids of the student's enrolled classes in strictly ascending LEXICOGRAPHIC
order of the classes' titles (the code sorts the title set before mapping
titles to ids) — deterministic, but not ascending numeric id order. -/
theorem C5_enrolled_ordered_by_title (main : Parsed) (details : List Parsed) :
    ∀ p ∈ (mergeParsed main details).students,
      List.Pairwise (fun a b =>
        strLe (titleOfId (mergeParsed main details).classes a)
            (titleOfId (mergeParsed main details).classes b) ∧
          titleOfId (mergeParsed main details).classes a ≠
            titleOfId (mergeParsed main details).classes b)
        p.enrolled_classes := by
  intro p hp
  rcases student_key_data main details p hp with ⟨d, _, _, _, _, henr, hnodup, _⟩
  rw [henr, mergeParsed_classes]
  exact enrolled_pairwise_titles _ _ hnodup

/-- Witness for C5 (amended): on the counterexample input the enrolled list
`[2, 1]` is ordered by title ("A" before "B"). -/
theorem C5_enrolled_ordered_witness :
    List.Pairwise (fun a b =>
      strLe (titleOfId (mergeParsed (⟨[⟨1, "S", none, none, [1, 2]⟩],
          [⟨1, "B"⟩, ⟨2, "A"⟩], []⟩ : Parsed) []).classes a)
          (titleOfId (mergeParsed (⟨[⟨1, "S", none, none, [1, 2]⟩],
            [⟨1, "B"⟩, ⟨2, "A"⟩], []⟩ : Parsed) []).classes b) ∧
        titleOfId (mergeParsed (⟨[⟨1, "S", none, none, [1, 2]⟩],
            [⟨1, "B"⟩, ⟨2, "A"⟩], []⟩ : Parsed) []).classes a ≠
          titleOfId (mergeParsed (⟨[⟨1, "S", none, none, [1, 2]⟩],
            [⟨1, "B"⟩, ⟨2, "A"⟩], []⟩ : Parsed) []).classes b)
      ([2, 1] : List Nat) :=
  C5_enrolled_ordered_by_title (⟨[⟨1, "S", none, none, [1, 2]⟩], [⟨1, "B"⟩, ⟨2, "A"⟩], []⟩ : Parsed)
    [] ⟨1, "S", none, none, [2, 1]⟩ (by decide)

/-- C6, counterexample: the claim says a grade is omitted only when its
student or class local id cannot be resolved within its own document.  A
grade whose class id resolves to the EMPTY title is also dropped (the code's
`if not ctitle: continue`), even though both resolutions succeed: below,
student 1 and class 1 both exist in the document, yet the merged grade list
is empty. -/
theorem C6_grade_drop_counterexample :
    (mergeParsed (⟨[⟨1, "A", none, none, []⟩], [⟨1, ""⟩], [⟨1, 1, some (PyFloat.val 1), none⟩]⟩ : Parsed) []).grades = []
    ∧ (⟨[⟨1, "A", none, none, []⟩], [⟨1, ""⟩], [⟨1, 1, some (PyFloat.val 1), none⟩]⟩ : Parsed).students.find?
        (fun s => decide (s.id = 1)) = some ⟨1, "A", none, none, []⟩
    ∧ class_id_to_title
        (⟨[⟨1, "A", none, none, []⟩], [⟨1, ""⟩], [⟨1, 1, some (PyFloat.val 1), none⟩]⟩ : Parsed) 1 = some "" := by
  refine ⟨?_, ?_, ?_⟩ <;> decide

/-- C6 (amended): every grade in the merged dataset references a student id
and a class id that exist in the returned students and classes collections;
the output grade list is exactly, per source document in order, the source's
grades resolved within that document — a grade is omitted precisely when its
student local id or class local id cannot be resolved within its own
document OR the resolved class title is the empty string — and the merged
students and classes do not depend on any source's grade list at all. -/
theorem C6_grade_referential_integrity (main : Parsed) (details : List Parsed) :
    (∀ g ∈ (mergeParsed main details).grades,
      (∃ s ∈ (mergeParsed main details).students, s.id = g.student_id) ∧
      (∃ c ∈ (mergeParsed main details).classes, c.id = g.class_id))
    ∧ (mergeParsed main details).grades =
        (main :: details).flatMap (fun src => src.grades.filterMap
          (gradeResolved (main :: details) (titleUniverse (main :: details)) src))
    ∧ (∀ main' details', (main.students, main.classes) = (main'.students, main'.classes) →
        details.map (fun p => (p.students, p.classes)) =
          details'.map (fun p => (p.students, p.classes)) →
        (mergeParsed main details).students = (mergeParsed main' details').students ∧
        (mergeParsed main details).classes = (mergeParsed main' details').classes) :=
  ⟨grade_refs_exist main details, mergeParsed_grades_eq main details,
    fun main' details' h1 h2 =>
      mergeParsed_students_classes_congr main main' details details' h1 h2⟩

/-- Witness for C6 (amended): in a merge whose input has one valid grade and
one grade with a dangling student id, the surviving output grade references
an existing student and class, and dropping the dangling grade leaves
students and classes untouched. -/
theorem C6_grade_integrity_witness :
    ((∃ s ∈ (mergeParsed (⟨[⟨1, "A", none, none, [1]⟩], [⟨1, "X"⟩],
        [⟨1, 1, some (PyFloat.val 90), none⟩, ⟨2, 1, some (PyFloat.val 50), none⟩]⟩ : Parsed) []).students, s.id = 1) ∧
      (∃ c ∈ (mergeParsed (⟨[⟨1, "A", none, none, [1]⟩], [⟨1, "X"⟩],
        [⟨1, 1, some (PyFloat.val 90), none⟩, ⟨2, 1, some (PyFloat.val 50), none⟩]⟩ : Parsed) []).classes, c.id = 1))
    ∧ ((mergeParsed (⟨[⟨1, "A", none, none, [1]⟩], [⟨1, "X"⟩],
          [⟨1, 1, some (PyFloat.val 90), none⟩, ⟨2, 1, some (PyFloat.val 50), none⟩]⟩ : Parsed) []).students =
        (mergeParsed (⟨[⟨1, "A", none, none, [1]⟩], [⟨1, "X"⟩], []⟩ : Parsed) []).students ∧
      (mergeParsed (⟨[⟨1, "A", none, none, [1]⟩], [⟨1, "X"⟩],
          [⟨1, 1, some (PyFloat.val 90), none⟩, ⟨2, 1, some (PyFloat.val 50), none⟩]⟩ : Parsed) []).classes =
        (mergeParsed (⟨[⟨1, "A", none, none, [1]⟩], [⟨1, "X"⟩], []⟩ : Parsed) []).classes) := by
  have h := C6_grade_referential_integrity
    (⟨[⟨1, "A", none, none, [1]⟩], [⟨1, "X"⟩], [⟨1, 1, some (PyFloat.val 90), none⟩, ⟨2, 1, some (PyFloat.val 50), none⟩]⟩ : Parsed) []
  refine ⟨h.1 ⟨1, 1, some (PyFloat.val 90), none⟩ (by decide), ?_⟩
  exact h.2.2 (⟨[⟨1, "A", none, none, [1]⟩], [⟨1, "X"⟩], []⟩ : Parsed) [] (by decide) (by decide)

/-- C7, counterexample: the claim says the merged age is the age of the
first occurrence of the key that HAS a non-null age.  The code stores the
age of the very first occurrence, null or not, and never updates it: with a
null-aged first occurrence and a second occurrence aged 20, the merged age
is null, not 20. -/
theorem C7_age_counterexample :
    (mergeParsed (⟨[⟨1, "A", none, none, []⟩], [], []⟩ : Parsed)
        [(⟨[⟨1, "A", none, some 20, []⟩], [], []⟩ : Parsed)]).students =
      [⟨1, "A", none, none, []⟩] := by
  decide

/-- C7 (amended): for every dedup key, the merged student's name, email and
age are taken from the FIRST occurrence of that key in merge order,
regardless of whether its age is null; later occurrences never change them. -/
theorem C7_age_from_first_occurrence (main : Parsed) (details : List Parsed) (k : Key)
    (s0 : SrcStudent)
    (h0 : (allStudents (main :: details)).find? (fun s => decide (skey s = k)) = some s0) :
    ∀ p ∈ (mergeParsed main details).students, skey p = k →
      p.age = s0.age ∧ p.name = s0.name ∧ p.email = s0.email := by
  intro p hp hk
  rcases student_key_data main details p hp with ⟨d, hd, hname, hemail, hage, _, _, _⟩
  rw [hk] at hd
  have hchar := mergedStudents_lookup (main :: details) k
  rw [hd] at hchar
  rw [find?_studentPairs] at h0
  cases hfp : (studentPairs (main :: details)).find? (fun q => decide (skey q.2 = k)) with
  | none =>
    rw [hfp] at hchar
    cases hchar
  | some p0 =>
    rw [hfp] at hchar h0
    injection hchar with hchar
    have hs0 : p0.2 = s0 := by simpa using h0
    subst hchar
    rw [← hs0]
    exact ⟨hage, hname, hemail⟩

/-- Witness for C7 (amended): in a merge where "A" first appears as the
second student of the main document (local id 9, age 3) and reappears aged
20 in a detail document, the merged student for "A" (global id 2) keeps age
3 — the age, name and email of the first occurrence. -/
theorem C7_age_witness :
    (⟨2, "A", none, some 3, []⟩ : SrcStudent).age = (⟨9, "A", none, some 3, []⟩ : SrcStudent).age
    ∧ (⟨2, "A", none, some 3, []⟩ : SrcStudent).name =
        (⟨9, "A", none, some 3, []⟩ : SrcStudent).name
    ∧ (⟨2, "A", none, some 3, []⟩ : SrcStudent).email =
        (⟨9, "A", none, some 3, []⟩ : SrcStudent).email :=
  C7_age_from_first_occurrence
    (⟨[⟨5, "B", none, some 7, []⟩, ⟨9, "A", none, some 3, []⟩], [], []⟩ : Parsed)
    [(⟨[⟨1, "A", none, some 20, []⟩], [], []⟩ : Parsed)] ("A", "")
    ⟨9, "A", none, some 3, []⟩ (by decide) ⟨2, "A", none, some 3, []⟩ (by decide) (by decide)

/-- C8, counterexample: the claim says each row after the first becomes
exactly one raw record. A row with no cells is skipped (`if not cols:
continue`): a table whose rows are a header row, an empty row, and one data
row yields 1 record, not the 2 the claim predicts. -/
theorem C8_row_count_counterexample :
    (extract_table ⟨none, [["name"], [], ["alice"]]⟩).length = 1
    ∧ (([["name"], [], ["alice"]] : List (List String)).drop 1).length = 2 := by
  constructor
  · decide
  · decide

/-- C8 (amended): for every table, each row after the first that has at
least one cell becomes exactly one raw record (cell-less rows are skipped);
column names come from the `thead` `th` cells if a `thead` section is
present, otherwise from the first row's cells, lower-cased and trimmed; when
the column field names of a row are pairwise distinct, the produced record
binds the i-th cell to the i-th column name; and any cell beyond the known
headers is stored under the synthetic positional field name `col_<i>` — as
in the concrete header-plus-two-data-row table with an unmatched extra
column, which yields exactly 2 records with the extra cell under `col_2`. -/
theorem C8_table_extraction (t : HtmlTable) (hs cols : List String)
    (hn : (colKeys hs cols).Nodup) :
    (extract_table t).length = ((t.rows.drop 1).filter (fun r => r ≠ [])).length
    ∧ extract_table t = (((t.rows.drop 1).map (fun r => r.map cellText)).filter
        (fun cols => cols ≠ [])).map (rowEntry (tableHeaders t))
    ∧ (∀ ths, t.theadTh = some ths → tableHeaders t = ths.map headerText)
    ∧ (t.theadTh = none → tableHeaders t = (t.rows.headD []).map headerText)
    ∧ rowEntry hs cols = (colKeys hs cols).zip (cols.map RawVal.s)
    ∧ (∀ i : Nat, hs.length ≤ i → colName hs i = "col_" ++ Nat.repr i)
    ∧ extract_table ⟨some ["Name", "Class"],
        [["Name", "Class"], ["Alice", "Math", "extra"], ["Bob", "Hist"]]⟩ =
      [[("name", RawVal.s "Alice"), ("class", RawVal.s "Math"), ("col_2", RawVal.s "extra")],
       [("name", RawVal.s "Bob"), ("class", RawVal.s "Hist")]] := by
  refine ⟨extract_table_length t, extract_table_eq t, ?_, ?_, rowEntry_eq_zip hs cols hn, ?_, ?_⟩
  · intro ths hths
    unfold tableHeaders
    rw [hths]
  · intro hnone
    unfold tableHeaders
    rw [hnone]
    cases t.rows with
    | nil => rfl
    | cons r rest => rfl
  · intro i hi
    unfold colName
    rw [List.getElem?_eq_none hi]
  · decide

/-- Witness for C8 (amended): the quantified clauses at a concrete table and
a concrete row. -/
theorem C8_table_extraction_witness :
    (extract_table ⟨none, [["h"], ["a", "b"], []]⟩).length =
      ((([["h"], ["a", "b"], []] : List (List String)).drop 1).filter (fun r => r ≠ [])).length
    ∧ rowEntry ["k"] ["x", "y"] = (colKeys ["k"] ["x", "y"]).zip (["x", "y"].map RawVal.s)
    ∧ colName ["k"] 1 = "col_" ++ Nat.repr 1 := by
  have h := C8_table_extraction ⟨none, [["h"], ["a", "b"], []]⟩ ["k"] ["x", "y"] (by decide)
  exact ⟨h.1, h.2.2.2.2.1, h.2.2.2.2.2.1 1 (by decide)⟩

/-- C9, counterexample: the claim says the splitter splits on any of the
delimiters `; , | /`.  The code splits only on `'|'` (the separator used to
flatten element text), so `"A;B|C"` yields `["A;B", "C"]`, not
`["A", "B", "C"]`. -/
theorem C9_split_counterexample :
    field_split "A;B|C" = ["A;B", "C"] ∧ field_split "A;B|C" ≠ ["A", "B", "C"] := by
  constructor
  · decide
  · decide

/-- C9 (amended): the field splitter splits only on the `'|'` separator,
trims each piece, and drops empty pieces: every returned piece is non-empty,
already stripped, and free of `'|'`; the splitter is idempotent on its own
output when the pieces are rejoined with the `'|'` separator; the empty
string yields the empty sequence; and `"A;B|C"` yields `["A;B", "C"]`. -/
theorem C9_field_split_properties (s : String) :
    (∀ p ∈ fsplit s.data, p ≠ [] ∧ pyStrip p = p ∧ '|' ∉ p)
    ∧ fsplit (joinPipe (fsplit s.data)) = fsplit s.data
    ∧ field_split "" = []
    ∧ field_split "A;B|C" = ["A;B", "C"]
    ∧ field_split " A | B " = ["A", "B"] :=
  ⟨fun _ hp => mem_fsplit hp, fsplit_idem s.data, rfl, by decide, by decide⟩

/-- Witness for C9 (amended): idempotence and the piece properties at the
concrete input `"A;B|C"`. -/
theorem C9_field_split_witness :
    fsplit (joinPipe (fsplit ("A;B|C" : String).data)) = fsplit ("A;B|C" : String).data
    ∧ (("A;B" : String).data ≠ [] ∧ pyStrip ("A;B" : String).data = ("A;B" : String).data ∧
        '|' ∉ ("A;B" : String).data) := by
  have h := C9_field_split_properties "A;B|C"
  exact ⟨h.2.1, h.1 ("A;B" : String).data (by decide)⟩

/-- C10, counterexample: the claim says the single merged record carries
the union of both duplicate students' enrolled class titles mapped through
the document's local class table, and that both students' grades (with
resolvable student and class ids) attach to it.  A class titled `""`
resolves through the local table but is dropped by the code's truthiness
tests (`if title:` for enrollments, `if not ctitle: continue` for grades):
below, the two "D" students merge into one record, yet that record's
enrolled classes `[2]` omit the ""-titled class 1 of student 1 — whose
local id resolves, as the last conjunct shows — and student 1's grade,
whose student id and class id both resolve within the document, is dropped
rather than attached. -/
theorem C10_empty_title_counterexample :
    (mergeParsed (⟨[⟨1, "D", none, none, [1]⟩, ⟨2, "D", none, none, [2]⟩],
        [⟨1, ""⟩, ⟨2, "Y"⟩], [⟨1, 1, some (PyFloat.val 50), none⟩]⟩ : Parsed) []).students =
      [⟨1, "D", none, none, [2]⟩]
    ∧ (mergeParsed (⟨[⟨1, "D", none, none, [1]⟩, ⟨2, "D", none, none, [2]⟩],
        [⟨1, ""⟩, ⟨2, "Y"⟩], [⟨1, 1, some (PyFloat.val 50), none⟩]⟩ : Parsed) []).classes =
      [⟨1, ""⟩, ⟨2, "Y"⟩]
    ∧ (mergeParsed (⟨[⟨1, "D", none, none, [1]⟩, ⟨2, "D", none, none, [2]⟩],
        [⟨1, ""⟩, ⟨2, "Y"⟩], [⟨1, 1, some (PyFloat.val 50), none⟩]⟩ : Parsed) []).grades = []
    ∧ class_id_to_title (⟨[⟨1, "D", none, none, [1]⟩, ⟨2, "D", none, none, [2]⟩],
        [⟨1, ""⟩, ⟨2, "Y"⟩], [⟨1, 1, some (PyFloat.val 50), none⟩]⟩ : Parsed) 1 = some ""
    ∧ (⟨[⟨1, "D", none, none, [1]⟩, ⟨2, "D", none, none, [2]⟩],
        [⟨1, ""⟩, ⟨2, "Y"⟩], [⟨1, 1, some (PyFloat.val 50), none⟩]⟩ : Parsed).students.find?
          (fun s => decide (s.id = 1)) = some ⟨1, "D", none, none, [1]⟩ := by
  refine ⟨?_, ?_, ?_, ?_, ?_⟩ <;> decide

/-- C10 (amended): student deduplication by (name, email-or-empty) also
applies within a single document: when the main document alone contains
two students with the same dedup key under distinct local ids (local ids
being unique in the document, per the data model, and no other student
sharing the key) and there are no detail documents, the merge returns
exactly one student record for that key; a class with a given title is
enrolled on that record exactly when the title is one of the two students'
enrolled class titles that resolve through the document's local class
table to a NON-EMPTY title (empty-string titles, though resolvable, are
dropped by the code's truthiness test); and every grade of either student
that resolves to a non-empty class title in the document attaches to that
single merged student. -/
theorem C10_within_document_dedup (main : Parsed) (s1 s2 : SrcStudent)
    (h1 : s1 ∈ main.students) (h2 : s2 ∈ main.students)
    (hids : (main.students.map (fun s => s.id)).Nodup)
    (hid12 : s1.id ≠ s2.id) (hkey : skey s1 = skey s2)
    (honly : ∀ st ∈ main.students, skey st = skey s1 → st = s1 ∨ st = s2) :
    ((mergeParsed main []).students.filter (fun s => decide (skey s = skey s1))).length = 1
    ∧ (∀ p ∈ (mergeParsed main []).students, skey p = skey s1 →
        ∀ t, (∃ c ∈ (mergeParsed main []).classes, c.id ∈ p.enrolled_classes ∧ c.title = t) ↔
          (t ∈ resolveTitles main s1 ∨ t ∈ resolveTitles main s2))
    ∧ (∀ g ∈ main.grades, (g.student_id = s1.id ∨ g.student_id = s2.id) →
        ∀ t, class_id_to_title main g.class_id = some t → t ≠ "" →
          ∃ p ∈ (mergeParsed main []).students, skey p = skey s1 ∧
            (⟨p.id, (classMapOf (titleUniverse [main]) t).getD 0, g.score, g.feedback⟩ : SrcGrade)
              ∈ (mergeParsed main []).grades) := by
  have hmem1 : s1 ∈ allStudents [main] := by
    unfold allStudents
    rw [List.flatMap_cons, List.flatMap_nil, List.append_nil]
    exact h1
  refine ⟨one_student_per_key main [] (skey s1) ⟨s1, hmem1, rfl⟩, ?_, ?_⟩
  · intro p hp hk t
    rcases student_key_data main [] p hp with ⟨d, hd, _, _, _, henr, _, hsub⟩
    rw [hk] at hd
    have hchar := mergedStudents_lookup [main] (skey s1)
    rw [hd] at hchar
    have hdt_iff : ∀ t', t' ∈ d.titles ↔
        (t' ∈ resolveTitles main s1 ∨ t' ∈ resolveTitles main s2) := by
      intro t'
      cases hfp : (studentPairs [main]).find? (fun q => decide (skey q.2 = skey s1)) with
      | none =>
        rw [hfp] at hchar
        cases hchar
      | some p0 =>
        rw [hfp] at hchar
        injection hchar with hchar
        rw [hchar]
        show t' ∈ (titlesOfKey (skey s1) (studentPairs [main])).foldl pyAdd [] ↔
          (t' ∈ resolveTitles main s1 ∨ t' ∈ resolveTitles main s2)
        rw [mem_foldl_pyAdd, mem_titlesOfKey]
        constructor
        · rintro (hacc | ⟨src, hsrc, st, hst, hkst, htm⟩)
          · cases hacc
          · rcases List.mem_singleton.mp hsrc with rfl
            rcases honly st hst hkst with rfl | rfl
            · exact Or.inl htm
            · exact Or.inr htm
        · rintro (htm | htm)
          · exact Or.inr ⟨main, List.mem_cons_self _ _, s1, h1, rfl, htm⟩
          · exact Or.inr ⟨main, List.mem_cons_self _ _, s2, h2, hkey.symm, htm⟩
    constructor
    · rintro ⟨c, hc, hcid, hct⟩
      rw [mergeParsed_classes] at hc
      rw [henr] at hcid
      rcases List.mem_filterMap.mp hcid with ⟨t', ht', hmap⟩
      have hti : titleOfId (classesOf 1 (titleUniverse [main])) c.id = t' :=
        titleOfId_classMapOf hmap
      have hnodup : ((classesOf 1 (titleUniverse [main])).map (fun x => x.id)).Nodup := by
        rw [classesOf_map_id]
        exact List.nodup_range' _ _
      have hfind : (classesOf 1 (titleUniverse [main])).find?
          (fun x => decide (x.id = c.id)) = some c :=
        find?_eq_some_of_nodup_map (fun x => x.id) _ c hnodup hc
      have htc : titleOfId (classesOf 1 (titleUniverse [main])) c.id = c.title := by
        unfold titleOfId
        rw [hfind]
        rfl
      have hteq : t = t' := by rw [← hct, ← htc, hti]
      subst hteq
      exact (hdt_iff t).mp ((mem_sortTitles _ _).mp ht')
    · intro ht
      have hdt : t ∈ d.titles := (hdt_iff t).mpr ht
      have htu : t ∈ titleUniverse [main] := hsub t hdt
      obtain ⟨n, hn⟩ := Option.isSome_iff_exists.mp ((classMapOf_isSome_iff _ t).mpr htu)
      have hfind := classesOf_find (titleUniverse [main]) t n 1 hn
      have harith : n - 1 + 1 = n := by
        have := classMapOf_pos hn
        omega
      rw [harith] at hfind
      refine ⟨⟨n, t⟩, ?_, ?_, rfl⟩
      · rw [mergeParsed_classes]
        exact List.mem_of_find?_eq_some hfind
      · rw [henr]
        exact List.mem_filterMap.mpr ⟨t, (mem_sortTitles _ _).mpr hdt, hn⟩
  · intro g hg hgid t hct hne
    have hkeya : ∃ st, main.students.find? (fun x => decide (x.id = g.student_id)) = some st ∧
        skey st = skey s1 := by
      rcases hgid with hgid | hgid
      · refine ⟨s1, ?_, rfl⟩
        rw [hgid]
        exact find?_eq_some_of_nodup_map (fun x => x.id) main.students s1 hids h1
      · refine ⟨s2, ?_, hkey.symm⟩
        rw [hgid]
        exact find?_eq_some_of_nodup_map (fun x => x.id) main.students s2 hids h2
    rcases hkeya with ⟨st, hfindst, hkst⟩
    have hkt : (key_to_new_id [main] (skey s1)).isSome := by
      rw [key_to_new_id_isSome_iff]
      exact ⟨s1, hmem1, rfl⟩
    obtain ⟨ns, hns⟩ := Option.isSome_iff_exists.mp hkt
    obtain ⟨p, hpmem, hpid, hpkey⟩ := student_of_key_to_new_id main [] (skey s1) ns hns
    refine ⟨p, hpmem, hpkey, ?_⟩
    rw [mergeParsed_grades_eq]
    apply List.mem_flatMap.mpr
    refine ⟨main, List.mem_cons_self _ _, ?_⟩
    apply List.mem_filterMap.mpr
    refine ⟨g, hg, ?_⟩
    have hres : gradeResolved [main] (titleUniverse [main]) main g =
        some ⟨(key_to_new_id [main] (skey st)).getD 0,
          (classMapOf (titleUniverse [main]) t).getD 0, g.score, g.feedback⟩ := by
      unfold gradeResolved
      rw [hfindst]
      change (match class_id_to_title main g.class_id with
        | none => none
        | some t0 =>
          if t0 = "" then none
          else some (⟨(key_to_new_id [main] (skey st)).getD 0,
            (classMapOf (titleUniverse [main]) t0).getD 0, g.score, g.feedback⟩ : SrcGrade)) = _
      rw [hct]
      change (if t = "" then none
        else some (⟨(key_to_new_id [main] (skey st)).getD 0,
          (classMapOf (titleUniverse [main]) t).getD 0, g.score, g.feedback⟩ : SrcGrade)) = _
      rw [if_neg hne]
    rw [hres, hkst, hns, hpid]
    rfl

/-- Witness for C10 (amended): a document with two same-key students "D"
under local ids 1 and 2 merges them into exactly one student record. -/
theorem C10_within_document_dedup_witness :
    ((mergeParsed (⟨[⟨1, "D", none, none, [1]⟩, ⟨2, "D", none, some 9, [2]⟩],
        [⟨1, "X"⟩, ⟨2, "Y"⟩],
        [⟨1, 1, some (PyFloat.val 50), none⟩,
          ⟨2, 2, some (PyFloat.val 60), none⟩]⟩ : Parsed) []).students.filter
      (fun s => decide (skey s = skey (⟨1, "D", none, none, [1]⟩ : SrcStudent)))).length = 1 :=
  (C10_within_document_dedup
    (⟨[⟨1, "D", none, none, [1]⟩, ⟨2, "D", none, some 9, [2]⟩], [⟨1, "X"⟩, ⟨2, "Y"⟩],
      [⟨1, 1, some (PyFloat.val 50), none⟩, ⟨2, 2, some (PyFloat.val 60), none⟩]⟩ : Parsed)
    ⟨1, "D", none, none, [1]⟩ ⟨2, "D", none, some 9, [2]⟩
    (by decide) (by decide) (by decide) (by decide) (by decide) (by decide)).1
